import Mathlib

/-!
Shallow embedding of the BART departure widget (src/script.js).

Modelling conventions, fixed throughout this file:
* JavaScript numbers used for geographic math are modelled as real numbers
  (`ℝ`); `Number.POSITIVE_INFINITY` used as the initial minimum in
  `findClosestStation` is modelled via `WithTop ℝ` (`⊤`).
* Epoch-millisecond timestamps (`Date.getTime()`) are modelled as `Int`.
  An invalid date / `NaN` timestamp (produced by `parseInt` on a
  non-numeric minutes string) is modelled as `none : Option Int`.
* `Array.prototype.sort(cmp)` is modelled as a stable insertion sort with
  the ECMAScript `SortCompare` semantics: a comparator result of `NaN`
  is treated as `+0` (same relative order kept).
* JavaScript objects used as string-keyed dictionaries with a fixed
  8-key literal (`formatDepartures`) are modelled as total functions from
  the 8-element key type; the object built up key-by-key in
  `filterRoutesByDirection` (whose key *insertion order* is observable via
  `Object.entries`) is modelled as an association list in insertion order.
-/

namespace BartWidget

/-- A latitude/longitude pair (degrees), as delivered by `Location.current()`
or parsed from the keychain cache. -/
structure Coordinate where
  latitude : ℝ
  longitude : ℝ

/-- A BART station from the station directory.  The numeric-string fields
`gtfs_latitude`/`gtfs_longitude` of the JSON payload are modelled directly by
their parsed numeric values (the source applies `Number.parseFloat`). -/
structure Station where
  abbr : String
  name : String
  address : String
  gtfs_latitude : ℝ
  gtfs_longitude : ℝ

/-- One raw estimate record of the `etd` payload (`destination.estimate[i]`). -/
structure Estimate where
  direction : String
  minutes : String
  length : String
deriving DecidableEq, Repr

/-- One `etd` entry: a destination with its list of raw estimates. -/
structure EtdEntry where
  abbreviation : String
  destination : String
  estimate : List Estimate
deriving DecidableEq, Repr

/-- The eight canonical line-direction keys of the `departures` object
literal in `formatDepartures`: the four lines, each eastbound or westbound. -/
inductive LineKey where
  | RedE | RedW | YellowE | YellowW | OrangeE | OrangeW | GreenE | GreenW
deriving DecidableEq, Repr

instance : Fintype LineKey :=
  ⟨⟨{LineKey.RedE, LineKey.RedW, LineKey.YellowE, LineKey.YellowW,
     LineKey.OrangeE, LineKey.OrangeW, LineKey.GreenE, LineKey.GreenW}, by decide⟩,
   by intro x; cases x <;> decide⟩

/-- Whether a key is one of the four Eastbound keys (the widget renders these
with the eastbound arrow: `color.endsWith("E")`). -/
def LineKey.isEastboundKey : LineKey → Bool
  | .RedE => true
  | .YellowE => true
  | .OrangeE => true
  | .GreenE => true
  | _ => false

/-- `getLineColor` of the source: the fixed mapping table from
(destination abbreviation, raw direction) to a line-direction key.
The source returns the string `"Unknown"` when the nested lookup misses;
`formatDepartures` then drops the estimate because `"Unknown"` is not a key
of the `departures` literal.  That miss is modelled as `none`. -/
def getLineColor (destination : String) (direction : String) : Option LineKey :=
  match destination, direction with
  | "ANTC", "North" => some LineKey.YellowE
  | "ANTC", "South" => some LineKey.YellowW
  | "PITT", "North" => some LineKey.YellowE
  | "PITT", "South" => some LineKey.YellowW
  | "SFIA", "South" => some LineKey.YellowW
  | "SFIA", "North" => some LineKey.YellowE
  | "MLBR", "South" => some LineKey.RedW
  | "MLBR", "North" => some LineKey.RedE
  | "RICH", "North" => some LineKey.RedE
  | "RICH", "South" => some LineKey.OrangeW
  | "BERY", "South" => some LineKey.GreenE
  | "BERY", "North" => some LineKey.OrangeW
  | "DALY", "South" => some LineKey.GreenW
  | "DALY", "North" => some LineKey.GreenE
  | _, _ => none

/-- Digit prefix of a character list (the digits consumed by `parseInt`). -/
def leadingDigits (cs : List Char) : List Char :=
  cs.takeWhile (fun c => c.isDigit)

/-- Numeric value of a digit list. -/
def digitsVal (ds : List Char) : Nat :=
  ds.foldl (fun n c => n * 10 + (c.toNat - 48)) 0

/-- `Number.parseInt(s)` (radix 10): skip leading whitespace, optional sign,
then a maximal digit prefix; `NaN` (here `none`) when no digits follow. -/
def parseIntJS (s : String) : Option Int :=
  let cs := s.data.dropWhile (fun c => c = ' ' ∨ c = '\t' ∨ c = '\n' ∨ c = '\r')
  match cs with
  | '-' :: rest =>
      let ds := leadingDigits rest
      if ds.isEmpty then none else some (-(digitsVal ds : Int))
  | '+' :: rest =>
      let ds := leadingDigits rest
      if ds.isEmpty then none else some ((digitsVal ds : Int))
  | _ =>
      let ds := leadingDigits cs
      if ds.isEmpty then none else some ((digitsVal ds : Nat) : Int)

/-- Subtraction of two JavaScript date values, the raw result of the
comparator `(a, b) => a.actualDepartureTime - b.actualDepartureTime`:
`NaN` (`none`) when either operand is an invalid date. -/
def jsSub (a b : Option Int) : Option Int :=
  match a, b with
  | some x, some y => some (x - y)
  | _, _ => none

/-- ECMAScript `SortCompare` applied to the comparator result: a `NaN`
comparator value is treated as `+0`. -/
def sortCompare (a b : Option Int) : Int :=
  (jsSub a b).getD 0

/-- The JavaScript `<=` on two date values: `false` whenever either side
is `NaN` (an invalid date). -/
def instantLe (a b : Option Int) : Bool :=
  match a, b with
  | some x, some y => decide (x ≤ y)
  | _, _ => false

/-- One step of the stable sort modelling `Array.prototype.sort`:
insert `x` in front of the first element it need not follow. -/
def insertByKey (key : α → Option Int) (x : α) : List α → List α
  | [] => [x]
  | y :: ys =>
      if sortCompare (key x) (key y) ≤ 0 then x :: y :: ys
      else y :: insertByKey key x ys

/-- Stable sort by a date-valued key, modelling
`arr.sort((a, b) => key(a) - key(b))`. -/
def sortByKey (key : α → Option Int) (l : List α) : List α :=
  l.foldr (insertByKey key) []

/-- One departure record as pushed by `formatDepartures`.
`departureTime` is the human-readable clock string, `actualDepartureTime`
the `Date` object kept for sorting (modelled as epoch milliseconds,
`none` for an invalid date). -/
structure Departure where
  destination : String
  minutes : String
  departureTime : String
  actualDepartureTime : Option Int
  length : String
  direction : String
deriving DecidableEq, Repr

/-- The sort key used by `formatDepartures` and `filterRoutesByDirection`. -/
def depKey (d : Departure) : Option Int := d.actualDepartureTime

/-- `formatLastUpdated`: 12-hour clock string with zero-padded minutes.
The local timezone of `Date.getHours()` is abstracted as UTC; an invalid
date renders its `NaN` fields. -/
def formatLastUpdated (t : Option Int) : String :=
  match t with
  | none => "NaN:NaN AM"
  | some ms =>
      let hours : Int := (ms.fdiv 3600000) % 24
      let minutes : Int := (ms.fdiv 60000) % 60
      let ampm := if hours ≥ 12 then "PM" else "AM"
      let displayHours := if hours = 0 then 12 else if hours > 12 then hours % 12 else hours
      let displayMinutes := if minutes < 10 then "0" ++ toString minutes else toString minutes
      toString displayHours ++ ":" ++ displayMinutes ++ " " ++ ampm

/-- The `departures` dictionary of `formatDepartures`: the 8-key object
literal is modelled as a total function on the 8-element key type. -/
abbrev Board := LineKey → List Departure

/-- The object literal with its eight empty arrays. -/
def emptyDepartures : Board := fun _ => []

/-- `departures[lineColor].push(dep)`. -/
def pushDeparture (b : Board) (k : LineKey) (d : Departure) : Board :=
  fun q => if q = k then b q ++ [d] else b q

/-- The key iteration order of the `departures` object literal
(`for (const line in departures)` / `Object.entries(departures)`). -/
def keyOrder : List LineKey :=
  [LineKey.RedE, LineKey.RedW, LineKey.YellowE, LineKey.YellowW,
   LineKey.OrangeE, LineKey.OrangeW, LineKey.GreenE, LineKey.GreenW]

/-- The departure record built for one estimate:
`departureTime = new Date(now.getTime() + parseInt(minutes) * 60000)`,
which is an invalid date when `parseInt` yields `NaN`. -/
def mkDeparture (now : Int) (g : EtdEntry) (e : Estimate) : Departure :=
  let t := (parseIntJS e.minutes).map (fun m => now + m * 60000)
  { destination := g.destination
    minutes := e.minutes
    departureTime := formatLastUpdated t
    actualDepartureTime := t
    length := e.length
    direction := e.direction }

/-- The nested push loop of `formatDepartures` (before the per-bucket sort):
estimates whose `(abbreviation, direction)` pair misses the mapping table
are dropped (the `lineColor in departures` test fails on `"Unknown"`). -/
def rawBoard (now : Int) (etd : List EtdEntry) : Board :=
  etd.foldl
    (fun b g =>
      g.estimate.foldl
        (fun c e =>
          match getLineColor g.abbreviation e.direction with
          | some k => pushDeparture c k (mkDeparture now g e)
          | none => c)
        b)
    emptyDepartures

/-- `formatDepartures`: group the raw estimates under the eight keys, then
sort each bucket by departure time. -/
def formatDepartures (now : Int) (etd : List EtdEntry) : Board :=
  fun k => sortByKey depKey (rawBoard now etd k)

/-- San Francisco city center latitude (configuration constant). -/
def SF_LATITUDE : ℝ := 37.7749

/-- San Francisco city center longitude (configuration constant). -/
def SF_LONGITUDE : ℝ := -122.4194

/-- The border threshold in miles (configuration constant). -/
def SF_BORDER_MILES : ℝ := 7

/-- `Math.atan2(y, x)`. -/
noncomputable def atan2 (y x : ℝ) : ℝ :=
  if 0 < x then Real.arctan (y / x)
  else if x = 0 then
    if 0 < y then Real.pi / 2 else if y < 0 then -(Real.pi / 2) else 0
  else
    if 0 ≤ y then Real.arctan (y / x) + Real.pi else Real.arctan (y / x) - Real.pi

/-- `calculateDistanceFromSF`: haversine distance in miles from the fixed
San Francisco reference point. -/
noncomputable def calculateDistanceFromSF (latitude longitude : ℝ) : ℝ :=
  let R : ℝ := 3959
  let dLat := (latitude - SF_LATITUDE) * Real.pi / 180
  let dLon := (longitude - SF_LONGITUDE) * Real.pi / 180
  let a :=
    Real.sin (dLat / 2) * Real.sin (dLat / 2) +
      Real.cos (SF_LATITUDE * Real.pi / 180) * Real.cos (latitude * Real.pi / 180) *
        Real.sin (dLon / 2) * Real.sin (dLon / 2)
  let c := 2 * atan2 (Real.sqrt a) (Real.sqrt (1 - a))
  R * c

/-- `isEastOfSFBorder`: within the border threshold classify west
unconditionally; outside it classify by longitude. -/
noncomputable def isEastOfSFBorder (latitude longitude : ℝ) : Bool :=
  if calculateDistanceFromSF latitude longitude ≤ SF_BORDER_MILES then false
  else decide (longitude > SF_LONGITUDE)

/-- `calculateDistance`: haversine distance in kilometers between two
coordinates (used for the nearest-station search). -/
noncomputable def calculateDistance (lat1 lon1 lat2 lon2 : ℝ) : ℝ :=
  let R : ℝ := 6371
  let dLat := (lat2 - lat1) * Real.pi / 180
  let dLon := (lon2 - lon1) * Real.pi / 180
  let a :=
    Real.sin (dLat / 2) * Real.sin (dLat / 2) +
      Real.cos (lat1 * Real.pi / 180) * Real.cos (lat2 * Real.pi / 180) *
        Real.sin (dLon / 2) * Real.sin (dLon / 2)
  let c := 2 * atan2 (Real.sqrt a) (Real.sqrt (1 - a))
  R * c

/-- Distance from the current location to one station. -/
noncomputable def stationDistance (cur : Coordinate) (s : Station) : ℝ :=
  calculateDistance cur.latitude cur.longitude s.gtfs_latitude s.gtfs_longitude

/-- The loop body of `findClosestStation`: compare the station's distance
with the minimum so far and keep the strictly closer one. -/
noncomputable def closestStep (cur : Coordinate) (acc : Option Station × WithTop ℝ)
    (station : Station) : Option Station × WithTop ℝ :=
  let d := stationDistance cur station
  if (d : WithTop ℝ) < acc.2 then (some station, (d : WithTop ℝ)) else acc

/-- `findClosestStation` (the loop over the already-fetched directory):
scan the stations keeping the first strict improvement of the minimum;
`closestStation` starts as `null` (`none`) and `minDistance` as
`Number.POSITIVE_INFINITY` (`⊤ : WithTop ℝ`). -/
noncomputable def findClosestStation (stations : List Station) (cur : Coordinate) :
    Option Station × WithTop ℝ :=
  stations.foldl (closestStep cur) (none, (⊤ : WithTop ℝ))

/-- A retained train as pushed onto `allTrains` in `filterRoutesByDirection`:
the departure record spread together with its `lineColor` tag. -/
structure TaggedDeparture where
  train : Departure
  lineColor : LineKey
deriving DecidableEq, Repr

/-- The sort key of the global re-sort in `filterRoutesByDirection`. -/
def taggedKey (t : TaggedDeparture) : Option Int := t.train.actualDepartureTime

/-- The post-filter board: the object built key-by-key by
`filterRoutesByDirection`, modelled as an association list in key insertion
order (JavaScript objects enumerate string keys in insertion order). -/
abbrev FilteredBoard := List (LineKey × List TaggedDeparture)

/-- Regrouping step: `if (!filteredDepartures[color]) filteredDepartures[color] = [];
filteredDepartures[color].push(train)`. -/
def addToGroups (acc : FilteredBoard) (t : TaggedDeparture) : FilteredBoard :=
  if acc.any (fun p => p.1 = t.lineColor) then
    acc.map (fun p => if p.1 = t.lineColor then (p.1, p.2 ++ [t]) else p)
  else
    acc ++ [(t.lineColor, [t])]

/-- Bucket access on the post-filter board: the array stored under `k`,
or the empty list when the key is absent. -/
def bucketOf (out : FilteredBoard) (k : LineKey) : List TaggedDeparture :=
  ((out.find? (fun p => p.1 = k)).map Prod.snd).getD []

/-- The `allTrains` list of `filterRoutesByDirection`: walk the eight buckets
in key order and keep the trains heading the direction of interest.
`isTrainEastbound` is computed from the *raw* feed direction string, and a
train is retained exactly when that flag agrees with `isEast`. -/
def retainedTrains (departures : Board) (isEast : Bool) : List TaggedDeparture :=
  keyOrder.flatMap
    (fun color =>
      (departures color).filterMap
        (fun train =>
          let isTrainEastbound := train.direction == "South" || train.direction == "East"
          if (isEast && isTrainEastbound) || (!isEast && !isTrainEastbound) then
            some { train := train, lineColor := color }
          else none))

/-- The direction-dependent logic of `filterRoutesByDirection`, after
`isEastOfSFBorder` has been evaluated: collect retained trains across the
buckets, sort them globally by departure time, and regroup by line color. -/
def filterRoutesByDirectionCore (departures : Board) (isEast : Bool) : FilteredBoard :=
  (sortByKey taggedKey (retainedTrains departures isEast)).foldl addToGroups []

/-- `filterRoutesByDirection`: evaluate the geographic heuristic on the
user coordinate, then retain, re-sort and regroup. -/
noncomputable def filterRoutesByDirection (departures : Board) (latitude longitude : ℝ) :
    FilteredBoard :=
  filterRoutesByDirectionCore departures (isEastOfSFBorder latitude longitude)

/-- A location value held by the `location` variable of `run`, together with
the identity of the JavaScript object holding it.  `JSON.parse` in
`getLastLocation` allocates a fresh object on every call, so two calls never
return the same object; `===` on objects is identity comparison.  Object
identities are modelled as allocation counters. -/
structure LocObj where
  coord : Coordinate
  objId : Nat

/-- The observable outcome of the widget branch of `run`:
the departure widget (with the `Using last known location` footer note shown
or not), the `BART API Error` widget, or the `Waiting for location` widget
produced by `createErrorWidget` when no location is available. -/
inductive RunOutcome where
  | widgetView (usedLocation : Coordinate) (closest : Option Station × WithTop ℝ)
      (departuresShown : FilteredBoard) (cachedNoteShown : Bool)
  | apiErrorView
  | locationErrorView

/-- The widget branch of `run`, with its external collaborators as inputs:
`live` is the result of `Location.current()` (`none` = it threw), `keychain`
the parsed content of the `lastKnownLocation` entry (`none` = absent or
unreadable, as `getLastLocation` converts read errors to `null`),
`stationsResp` and `etdResp` the two API payloads (`none` = fetch or shape
validation failed).  On live success the location is stored back to the
keychain; on live failure the cache is consulted and its absence raises the
error caught by the outer handler (`locationErrorView`).  A `null` closest
station makes `createWidget` throw on property access, caught as the API
error.  The cached-location footer note is shown iff
`location === getLastLocation()`, an object identity test between the held
object and a freshly parsed one. -/
noncomputable def runWidget (live : Option Coordinate) (keychain : Option Coordinate)
    (stationsResp : Option (List Station)) (etdResp : Option (List EtdEntry))
    (now : Int) : RunOutcome :=
  let acquired : Option (LocObj × Option Coordinate × Nat) :=
    match live with
    | some c => some (⟨c, 0⟩, some c, 1)
    | none =>
        match keychain with
        | some c => some (⟨c, 1⟩, keychain, 2)
        | none => none
  match acquired with
  | none => RunOutcome.locationErrorView
  | some (loc, keychainAfter, ctr) =>
      match stationsResp with
      | none => RunOutcome.apiErrorView
      | some stations =>
          let closest := findClosestStation stations loc.coord
          match closest.1 with
          | none => RunOutcome.apiErrorView
          | some _ =>
              match etdResp with
              | none => RunOutcome.apiErrorView
              | some etd =>
                  let board := formatDepartures now etd
                  let filtered :=
                    filterRoutesByDirection board loc.coord.latitude loc.coord.longitude
                  let second : Option LocObj :=
                    match keychainAfter with
                    | some c2 => some ⟨c2, ctr⟩
                    | none => none
                  let note :=
                    match second with
                    | some l2 => loc.objId == l2.objId
                    | none => false
                  RunOutcome.widgetView loc.coord closest filtered note

/-! Specification-side helper definitions used in the theorem statements.
They restate, directly from the source loops, which departures end up in
which bucket; the theorems below relate the functions above to them. -/

/-- The departures destined for bucket `k`, in raw input order: the
estimates of `etd` (outer loop over destinations, inner loop over their
estimates) whose `(abbreviation, direction)` pair maps to `k`. -/
def bucketSource (now : Int) (etd : List EtdEntry) (k : LineKey) : List Departure :=
  etd.flatMap
    (fun g =>
      g.estimate.filterMap
        (fun e =>
          if getLineColor g.abbreviation e.direction = some k then
            some (mkDeparture now g e)
          else none))

/-- All departures with a mapping-table entry, in raw input order. -/
def mappedDepartures (now : Int) (etd : List EtdEntry) : List Departure :=
  etd.flatMap
    (fun g =>
      g.estimate.filterMap
        (fun e =>
          (getLineColor g.abbreviation e.direction).map (fun _ => mkDeparture now g e)))

/-- Every element of the list carries a valid (non-`NaN`) sort key. -/
def validKey (key : α → Option Int) (l : List α) : Prop :=
  ∀ x ∈ l, (key x).isSome = true

/-- The ordering relation realised by the comparator: `a` need not move
after `b`. -/
def keyLe (key : α → Option Int) (a b : α) : Prop :=
  sortCompare (key a) (key b) ≤ 0

/-- Between any two elements satisfying `P`, every element satisfies `P`:
the `P`-elements of the list form one contiguous block.  (The retained
trains of one line color are contiguous in `allTrains`, which is built
color block by color block.) -/
def Contig (P : α → Bool) (l : List α) : Prop :=
  ∀ u x m z v, l = u ++ x :: m ++ z :: v → P x = true → P z = true →
    ∀ e ∈ m, P e = true

/-- Every `NaN`-free stretch of the list is non-decreasing: whenever two
valid-keyed elements have only valid-keyed elements between them, they are
in comparator order.  This is the order structure `Array.prototype.sort`
guarantees in the presence of `NaN` comparator results. -/
def SegSorted (key : α → Option Int) (l : List α) : Prop :=
  ∀ u x m z v, l = u ++ x :: m ++ z :: v →
    (∀ e ∈ m, (key e).isSome = true) →
    (key x).isSome = true → (key z).isSome = true →
    sortCompare (key x) (key z) ≤ 0

/-- Between any comparator inversion of two `P`-elements there is an
invalid-keyed (`NaN`) element: re-sorting can never carry the later element
of the inversion past that barrier, so the `P`-subsequence is preserved. -/
def Barrier (key : α → Option Int) (P : α → Bool) (l : List α) : Prop :=
  ∀ u x m z v, l = u ++ x :: m ++ z :: v → P x = true → P z = true →
    0 < sortCompare (key x) (key z) → ∃ n ∈ m, key n = none

/-- Every bucket of the board carries valid departure instants. -/
def validBoard (b : Board) : Prop :=
  ∀ k, ∀ d ∈ b k, d.actualDepartureTime.isSome = true

/-- The homogeneity-and-uniqueness invariant of the regrouped object:
keys are distinct and each entry holds only trains of its own color. -/
def groupsWF (out : FilteredBoard) : Prop :=
  (out.map Prod.fst).Nodup ∧ ∀ p ∈ out, ∀ t ∈ p.2, t.lineColor = p.1

/-! Concrete inputs used by witnesses and counterexamples. -/

/-- A departure as aggregated from a `RICH`/`North` estimate: its key is
`RedE` but its raw feed direction is `"North"`. -/
def depRichNorth : Departure :=
  { destination := "Richmond", minutes := "5", departureTime := "12:05 AM",
    actualDepartureTime := some 300000, length := "10", direction := "North" }

/-- A departure as aggregated from an `ANTC`/`South` estimate: its key is
`YellowW` but its raw feed direction is `"South"`. -/
def depAntcSouth : Departure :=
  { destination := "Antioch", minutes := "5", departureTime := "12:05 AM",
    actualDepartureTime := some 300000, length := "10", direction := "South" }

/-- A departure as aggregated from a `BERY`/`South` estimate: its key is
`GreenE` and its raw feed direction is `"South"`. -/
def depBerySouth : Departure :=
  { destination := "Berryessa", minutes := "8", departureTime := "12:08 AM",
    actualDepartureTime := some 480000, length := "10", direction := "South" }

/-- A board whose only departure sits under the Eastbound key `RedE`. -/
def boardRedE : Board :=
  fun k => if k = LineKey.RedE then [depRichNorth] else []

/-- A board with one `YellowW` departure and one `GreenE` departure, both of
raw direction `"South"` (exactly what `formatDepartures` produces for
`ANTC`/`South` and `BERY`/`South` estimates). -/
def boardMixed : Board :=
  fun k =>
    if k = LineKey.YellowW then [depAntcSouth]
    else if k = LineKey.GreenE then [depBerySouth]
    else []

/-- A user latitude for which the classification is provably Eastbound:
`SF_LATITUDE + 180` makes the haversine `a`-term exactly `1`, so the
distance from SF is exactly `3959 * π` miles, and with longitude
`SF_LONGITUDE + 360` the longitude test is decided by `360 > 0`. -/
def eastLat : ℝ := SF_LATITUDE + 180

/-- See `eastLat`. -/
def eastLon : ℝ := SF_LONGITUDE + 360

/-- A longitude equal to the reference longitude (used with `eastLat` to
exercise the outside-the-border westbound case). -/
def westLon : ℝ := SF_LONGITUDE

/-- The coordinate held by the location cache in the `C3` scenario. -/
def cachedCoord : Coordinate := { latitude := 37.8, longitude := -122.3 }

/-- A concrete station used by witnesses. -/
def stRICH : Station :=
  { abbr := "RICH", name := "Richmond", address := "Richmond CA",
    gtfs_latitude := 37.936887, gtfs_longitude := -122.353165 }

/-- An origin coordinate used by witnesses. -/
def originCoord : Coordinate := { latitude := 0, longitude := 0 }

/-- The sentinel estimate of the `C8` counterexample. -/
def estSentinel1 : Estimate :=
  { direction := "North", minutes := "Leaving", length := "10" }

/-- The numeric estimate of the `C8` counterexample. -/
def estSentinel2 : Estimate :=
  { direction := "North", minutes := "5", length := "10" }

/-- An `ANTC` destination with a sentinel `"Leaving"` estimate followed by a
numeric `"5"` estimate, both mapping to `YellowE`. -/
def entrySentinel : EtdEntry :=
  { abbreviation := "ANTC", destination := "Antioch",
    estimate := [estSentinel1, estSentinel2] }

/-- The `etd` payload of the `C8` counterexample. -/
def etdSentinel : List EtdEntry := [entrySentinel]

/-- An all-numeric `etd` payload (witness input): two `ANTC` estimates. -/
def etdNumeric : List EtdEntry :=
  [{ abbreviation := "ANTC", destination := "Antioch",
     estimate :=
       [{ direction := "North", minutes := "9", length := "10" },
        { direction := "North", minutes := "2", length := "8" }] }]

/-- An estimate carrying the non-numeric sentinel `"Leaving"`. -/
def estLeaving : Estimate :=
  { direction := "North", minutes := "Leaving", length := "9" }

/-- A `RICH` destination whose only estimate is `estLeaving`. -/
def entryLeaving : EtdEntry :=
  { abbreviation := "RICH", destination := "Richmond", estimate := [estLeaving] }

/-- The `etd` payload of the `C10` witness. -/
def etdLeaving : List EtdEntry := [entryLeaving]

/-! ### Lemmas about the sort model -/

theorem sortCompare_le_total (a b : Option Int) :
    sortCompare a b ≤ 0 ∨ sortCompare b a ≤ 0 := by
  rcases a with _ | x <;> rcases b with _ | y <;> simp [sortCompare, jsSub]
  omega

theorem sortCompare_le_trans {a b c : Option Int} (ha : a.isSome = true)
    (hb : b.isSome = true) (hc : c.isSome = true)
    (hab : sortCompare a b ≤ 0) (hbc : sortCompare b c ≤ 0) :
    sortCompare a c ≤ 0 := by
  obtain ⟨x, rfl⟩ := Option.isSome_iff_exists.mp ha
  obtain ⟨y, rfl⟩ := Option.isSome_iff_exists.mp hb
  obtain ⟨z, rfl⟩ := Option.isSome_iff_exists.mp hc
  simp only [sortCompare, jsSub, Option.getD_some] at hab hbc ⊢
  omega

theorem sortByKey_nil (key : α → Option Int) : sortByKey key [] = [] := rfl

theorem insertByKey_nil (key : α → Option Int) (x : α) : insertByKey key x [] = [x] := rfl

theorem insertByKey_cons (key : α → Option Int) (x y : α) (ys : List α) :
    insertByKey key x (y :: ys) =
      if sortCompare (key x) (key y) ≤ 0 then x :: y :: ys
      else y :: insertByKey key x ys := rfl

theorem sortByKey_cons (key : α → Option Int) (x : α) (l : List α) :
    sortByKey key (x :: l) = insertByKey key x (sortByKey key l) := rfl

theorem insertByKey_perm (key : α → Option Int) (x : α) :
    ∀ l : List α, List.Perm (insertByKey key x l) (x :: l)
  | [] => List.Perm.refl _
  | y :: ys => by
      unfold insertByKey
      by_cases h : sortCompare (key x) (key y) ≤ 0
      · simp [h]
      · simp only [if_neg h]
        exact ((insertByKey_perm key x ys).cons y).trans (List.Perm.swap x y ys)

theorem sortByKey_perm (key : α → Option Int) :
    ∀ l : List α, List.Perm (sortByKey key l) l
  | [] => List.Perm.refl _
  | x :: l =>
      (insertByKey_perm key x (sortByKey key l)).trans ((sortByKey_perm key l).cons x)

theorem mem_sortByKey {key : α → Option Int} {l : List α} {x : α} :
    x ∈ sortByKey key l ↔ x ∈ l :=
  (sortByKey_perm key l).mem_iff

theorem validKey_of_sublist {key : α → Option Int} {l m : List α}
    (h : ∀ x ∈ m, x ∈ l) (hv : validKey key l) : validKey key m :=
  fun x hx => hv x (h x hx)

theorem pairwise_insertByKey (key : α → Option Int) (x : α) :
    ∀ l : List α, validKey key (x :: l) → l.Pairwise (keyLe key) →
      (insertByKey key x l).Pairwise (keyLe key)
  | [], _, _ => by simp [insertByKey, List.pairwise_singleton]
  | y :: ys, hv, hl => by
      unfold insertByKey
      by_cases h : sortCompare (key x) (key y) ≤ 0
      · simp only [if_pos h]
        refine List.Pairwise.cons ?_ hl
        intro z hz
        rcases List.mem_cons.mp hz with rfl | hz
        · exact h
        · exact sortCompare_le_trans (hv x (by simp)) (hv y (by simp))
            (hv z (by simp [hz])) h (List.rel_of_pairwise_cons hl hz)
      · simp only [if_neg h]
        refine List.Pairwise.cons ?_ ?_
        · intro z hz
          rcases List.mem_cons.mp ((insertByKey_perm key x ys).mem_iff.mp hz) with h2 | h2
          · rw [h2]
            rcases sortCompare_le_total (key y) (key x) with h1 | h1
            · exact h1
            · exact absurd h1 h
          · exact List.rel_of_pairwise_cons hl h2
        · exact pairwise_insertByKey key x ys
            (validKey_of_sublist
              (by intro z hz; rcases List.mem_cons.mp hz with h2 | h2 <;> simp [h2]) hv)
            hl.of_cons

theorem sortByKey_pairwise (key : α → Option Int) :
    ∀ l : List α, validKey key l → (sortByKey key l).Pairwise (keyLe key)
  | [], _ => by simp [sortByKey]
  | x :: l, hv => by
      rw [sortByKey_cons]
      refine pairwise_insertByKey key x (sortByKey key l) ?_
        (sortByKey_pairwise key l (validKey_of_sublist (by intro z hz; simp [hz]) hv))
      intro z hz
      rcases List.mem_cons.mp hz with rfl | hz
      · exact hv z (by simp)
      · exact hv z (by simp [mem_sortByKey.mp hz])

theorem insertByKey_of_forall_le {key : α → Option Int} {x : α} :
    ∀ {m : List α}, (∀ z ∈ m, keyLe key x z) → insertByKey key x m = x :: m
  | [], _ => rfl
  | y :: ys, h => by
      unfold insertByKey
      exact if_pos (h y (by simp))

theorem sortByKey_eq_self (key : α → Option Int) :
    ∀ {l : List α}, l.Pairwise (keyLe key) → sortByKey key l = l
  | [], _ => rfl
  | x :: l, h => by
      rw [sortByKey_cons, sortByKey_eq_self key h.of_cons]
      exact insertByKey_of_forall_le (fun z hz => List.rel_of_pairwise_cons h hz)

theorem filter_insertByKey_neg {key : α → Option Int} (P : α → Bool) {x : α}
    (hx : P x = false) : ∀ m : List α, (insertByKey key x m).filter P = m.filter P
  | [] => by simp [insertByKey, hx]
  | y :: ys => by
      unfold insertByKey
      by_cases h : sortCompare (key x) (key y) ≤ 0
      · simp [h, hx]
      · simp only [if_neg h]
        by_cases hy : P y
        · simp [List.filter_cons, hy, filter_insertByKey_neg P hx ys]
        · simp [List.filter_cons, hy, filter_insertByKey_neg P hx ys]

theorem filter_insertByKey_pos {key : α → Option Int} (P : α → Bool) {x : α}
    (hx : P x = true) :
    ∀ m : List α, m.Pairwise (keyLe key) → validKey key (x :: m) →
      (insertByKey key x m).filter P = insertByKey key x (m.filter P)
  | [], _, _ => by simp [insertByKey_nil, hx]
  | y :: ys, hm, hv => by
      have hvtail : validKey key (x :: ys) := by
        intro z hz
        rcases List.mem_cons.mp hz with h2 | h2
        · exact hv z (by simp [h2])
        · exact hv z (by simp [h2])
      rw [insertByKey_cons]
      by_cases h : sortCompare (key x) (key y) ≤ 0
      · rw [if_pos h, List.filter_cons, if_pos hx]
        refine (insertByKey_of_forall_le ?_).symm
        intro z hz
        rcases List.mem_cons.mp (List.mem_of_mem_filter hz) with h2 | h2
        · subst h2; exact h
        · exact sortCompare_le_trans (hv x (by simp)) (hv y (by simp))
            (hv z (by simp [h2])) h (List.rel_of_pairwise_cons hm h2)
      · rw [if_neg h]
        by_cases hy : P y = true
        · rw [List.filter_cons, if_pos hy, List.filter_cons, if_pos hy, insertByKey_cons,
            if_neg h, filter_insertByKey_pos P hx ys hm.of_cons hvtail]
        · rw [List.filter_cons, if_neg hy, List.filter_cons, if_neg hy]
          exact filter_insertByKey_pos P hx ys hm.of_cons hvtail

theorem filter_sortByKey {key : α → Option Int} (P : α → Bool) :
    ∀ l : List α, validKey key l →
      (sortByKey key l).filter P = sortByKey key (l.filter P)
  | [], _ => rfl
  | x :: l, hv => by
      have hvl : validKey key l := validKey_of_sublist (by intro z hz; simp [hz]) hv
      have hvs : validKey key (x :: sortByKey key l) := by
        intro z hz
        rcases List.mem_cons.mp hz with rfl | hz
        · exact hv z (by simp)
        · exact hvl z (mem_sortByKey.mp hz)
      rw [sortByKey_cons]
      by_cases hx : P x
      · rw [filter_insertByKey_pos P hx (sortByKey key l) (sortByKey_pairwise key l hvl) hvs,
          filter_sortByKey P l hvl, List.filter_cons_of_pos hx, sortByKey_cons]
      · rw [filter_insertByKey_neg P (Bool.not_eq_true _ ▸ hx) (sortByKey key l),
          filter_sortByKey P l hvl, List.filter_cons_of_neg hx]

/-! ### The aggregator: bucket characterization -/

theorem pushDeparture_apply (b : Board) (k q : LineKey) (d : Departure) :
    pushDeparture b k d q = if q = k then b q ++ [d] else b q := rfl

theorem estimatesFold_apply (now : Int) (g : EtdEntry) (k : LineKey) :
    ∀ (es : List Estimate) (b : Board),
      (es.foldl
          (fun c e =>
            match getLineColor g.abbreviation e.direction with
            | some q => pushDeparture c q (mkDeparture now g e)
            | none => c)
          b) k
        = b k ++
            es.filterMap
              (fun e =>
                if getLineColor g.abbreviation e.direction = some k then
                  some (mkDeparture now g e)
                else none)
  | [], b => by simp
  | e :: es, b => by
      rw [List.foldl_cons, estimatesFold_apply now g k es]
      rcases h : getLineColor g.abbreviation e.direction with _ | k0
      · simp [h]
      · simp only [h, List.filterMap_cons]
        by_cases hk : k0 = k
        · subst hk
          simp [pushDeparture_apply]
        · have : ¬(some k0 = some k) := by simp [hk]
          simp [pushDeparture_apply, this, Ne.symm hk]

theorem etdFold_apply (now : Int) (k : LineKey) :
    ∀ (etd : List EtdEntry) (b : Board),
      (etd.foldl
          (fun c g =>
            g.estimate.foldl
              (fun c2 e =>
                match getLineColor g.abbreviation e.direction with
                | some q => pushDeparture c2 q (mkDeparture now g e)
                | none => c2)
              c)
          b) k
        = b k ++ bucketSource now etd k
  | [], b => by simp [bucketSource]
  | g :: etd, b => by
      rw [List.foldl_cons, etdFold_apply now k etd, estimatesFold_apply now g k]
      simp [bucketSource]

theorem rawBoard_apply (now : Int) (etd : List EtdEntry) (k : LineKey) :
    rawBoard now etd k = bucketSource now etd k := by
  have h := etdFold_apply now k etd emptyDepartures
  simpa [rawBoard, emptyDepartures] using h

theorem formatDepartures_apply (now : Int) (etd : List EtdEntry) (k : LineKey) :
    formatDepartures now etd k = sortByKey depKey (bucketSource now etd k) := by
  rw [formatDepartures, rawBoard_apply]

theorem filterMap_cons_toList (f : β → Option γ) (a : β) (l : List β) :
    (a :: l).filterMap f = (f a).toList ++ l.filterMap f := by
  rcases h : f a with _ | b <;> simp [List.filterMap_cons, h]

theorem append_shuffle (a b c : List γ) : List.Perm (a ++ (b ++ c)) (b ++ (a ++ c)) := by
  rw [← List.append_assoc, ← List.append_assoc]
  exact List.perm_append_comm.append_right c

theorem flatMap_append_perm (f g : β → List γ) :
    ∀ L : List β, List.Perm (L.flatMap (fun b => f b ++ g b)) (L.flatMap f ++ L.flatMap g)
  | [] => by simp
  | b :: L => by
      simp only [List.flatMap_cons]
      refine (List.Perm.append_left _ (flatMap_append_perm f g L)).trans ?_
      rw [List.append_assoc, List.append_assoc]
      exact List.Perm.append_left (f b) (append_shuffle (g b) (L.flatMap f) (L.flatMap g))

theorem flatMap_perm_of_forall (f g : β → List γ) :
    ∀ L : List β, (∀ b ∈ L, List.Perm (f b) (g b)) → List.Perm (L.flatMap f) (L.flatMap g)
  | [], _ => List.Perm.refl _
  | b :: L, h => by
      simp only [List.flatMap_cons]
      exact (h b (by simp)).append (flatMap_perm_of_forall f g L (fun c hc => h c (by simp [hc])))

theorem keyOrder_flatMap_single (now : Int) (g : EtdEntry) (e : Estimate) :
    keyOrder.flatMap
        (fun k =>
          ((if getLineColor g.abbreviation e.direction = some k then
              some (mkDeparture now g e)
            else none) : Option Departure).toList)
      = ((getLineColor g.abbreviation e.direction).map
          (fun _ => mkDeparture now g e)).toList := by
  rcases h : getLineColor g.abbreviation e.direction with _ | k0
  · simp [keyOrder, h]
  · cases k0 <;> simp [keyOrder, h]

theorem keyOrder_bucketSource_single_perm (now : Int) (g : EtdEntry) :
    ∀ es : List Estimate,
      List.Perm
        (keyOrder.flatMap
          (fun k =>
            es.filterMap
              (fun e =>
                if getLineColor g.abbreviation e.direction = some k then
                  some (mkDeparture now g e)
                else none)))
        (es.filterMap
          (fun e =>
            (getLineColor g.abbreviation e.direction).map (fun _ => mkDeparture now g e)))
  | [] => by simp
  | e :: es => by
      have h1 :
          (keyOrder.flatMap
            (fun k =>
              (e :: es).filterMap
                (fun x =>
                  if getLineColor g.abbreviation x.direction = some k then
                    some (mkDeparture now g x)
                  else none)))
            = keyOrder.flatMap
                (fun k =>
                  ((if getLineColor g.abbreviation e.direction = some k then
                      some (mkDeparture now g e)
                    else none) : Option Departure).toList ++
                    es.filterMap
                      (fun x =>
                        if getLineColor g.abbreviation x.direction = some k then
                          some (mkDeparture now g x)
                        else none)) := by
        refine List.flatMap_congr ?_
        intro k _
        rw [filterMap_cons_toList]
      rw [h1, filterMap_cons_toList]
      refine (flatMap_append_perm _ _ keyOrder).trans ?_
      rw [keyOrder_flatMap_single]
      exact List.Perm.append_left _ (keyOrder_bucketSource_single_perm now g es)

theorem keyOrder_bucketSource_perm (now : Int) :
    ∀ etd : List EtdEntry,
      List.Perm (keyOrder.flatMap (fun k => bucketSource now etd k))
        (mappedDepartures now etd)
  | [] => by simp [bucketSource, mappedDepartures]
  | g :: etd => by
      have h1 :
          keyOrder.flatMap (fun k => bucketSource now (g :: etd) k)
            = keyOrder.flatMap
                (fun k =>
                  g.estimate.filterMap
                    (fun e =>
                      if getLineColor g.abbreviation e.direction = some k then
                        some (mkDeparture now g e)
                      else none) ++ bucketSource now etd k) := by
        refine List.flatMap_congr ?_
        intro k _
        simp [bucketSource]
      rw [h1]
      have h2 : mappedDepartures now (g :: etd)
          = g.estimate.filterMap
              (fun e =>
                (getLineColor g.abbreviation e.direction).map
                  (fun _ => mkDeparture now g e)) ++ mappedDepartures now etd := by
        simp [mappedDepartures]
      rw [h2]
      refine (flatMap_append_perm _ _ keyOrder).trans ?_
      exact (keyOrder_bucketSource_single_perm now g g.estimate).append
        (keyOrder_bucketSource_perm now etd)

/-! ### The direction filter: regrouping lemmas -/

theorem bucketOf_nil (k : LineKey) : bucketOf [] k = [] := rfl

theorem bucketOf_eq_nil_of_not_mem {out : FilteredBoard} {k : LineKey}
    (h : k ∉ out.map Prod.fst) : bucketOf out k = [] := by
  have hf : out.find? (fun p => p.1 = k) = none := by
    rw [List.find?_eq_none]
    intro p hp
    simp only [decide_eq_true_eq]
    intro hk
    exact h (List.mem_map.mpr ⟨p, hp, hk⟩)
  simp [bucketOf, hf]

theorem find?_map_fst_preserving (upd : LineKey × List TaggedDeparture → LineKey × List TaggedDeparture)
    (hupd : ∀ p, (upd p).1 = p.1) (k : LineKey) :
    ∀ acc : FilteredBoard,
      (acc.map upd).find? (fun p => p.1 = k) = (acc.find? (fun p => p.1 = k)).map upd
  | [] => rfl
  | p :: acc => by
      by_cases h : p.1 = k
      · rw [List.map_cons, List.find?_cons_of_pos, List.find?_cons_of_pos] <;>
          simp [hupd, h]
      · rw [List.map_cons, List.find?_cons_of_neg, List.find?_cons_of_neg,
          find?_map_fst_preserving upd hupd k acc] <;> simp [hupd, h]

theorem bucketOf_addToGroups (acc : FilteredBoard) (t : TaggedDeparture) (k : LineKey) :
    bucketOf (addToGroups acc t) k
      = if k = t.lineColor then bucketOf acc k ++ [t] else bucketOf acc k := by
  unfold addToGroups
  by_cases hAny : acc.any (fun p => p.1 = t.lineColor)
  · rw [if_pos hAny]
    have hupd : ∀ p : LineKey × List TaggedDeparture,
        ((if p.1 = t.lineColor then (p.1, p.2 ++ [t]) else p)).1 = p.1 := by
      intro p
      by_cases h : p.1 = t.lineColor <;> simp [h]
    unfold bucketOf
    rw [find?_map_fst_preserving _ hupd k acc]
    rcases hf : acc.find? (fun p => p.1 = t.lineColor) with _ | p0
    · rcases List.any_eq_true.mp hAny with ⟨p, hp, hpt⟩
      have := List.find?_eq_none.mp hf p hp
      exact absurd hpt this
    · rcases hfk : acc.find? (fun p => p.1 = k) with _ | q0
      · have hk : k ≠ t.lineColor := by
          intro hk
          subst hk
          rw [hf] at hfk
          exact Option.noConfusion hfk
        rw [hfk, if_neg hk]
        simp
      · have hq : q0.1 = k := by
          have := List.find?_some hfk
          simpa using this
        rw [hfk]
        by_cases hk : k = t.lineColor
        · rw [if_pos hk]
          have hqt : q0.1 = t.lineColor := by rw [hq, hk]
          simp [hqt]
        · rw [if_neg hk]
          have hqt : ¬(q0.1 = t.lineColor) := by rw [hq]; exact hk
          simp [hqt]
  · rw [if_neg hAny]
    unfold bucketOf
    rcases hfk : acc.find? (fun p => p.1 = k) with _ | q0
    · by_cases hk : k = t.lineColor
      · subst hk
        rw [List.find?_append, hfk]
        simp
      · rw [List.find?_append, hfk]
        have : ((t.lineColor, [t]) : LineKey × List TaggedDeparture).1 = t.lineColor := rfl
        simp [Ne.symm hk, hk]
    · have hq : q0.1 = k := by
        have := List.find?_some hfk
        simpa using this
      have hne : k ≠ t.lineColor := by
        intro hk
        have : acc.any (fun p => p.1 = t.lineColor) = true := by
          rcases List.mem_of_find?_eq_some hfk with hmem
          exact List.any_eq_true.mpr ⟨q0, hmem, by simp [hq, hk]⟩
        exact hAny this
      rw [List.find?_append, hfk]
      simp [hne]

theorem bucketOf_foldl_addToGroups (k : LineKey) :
    ∀ (s : List TaggedDeparture) (acc : FilteredBoard),
      bucketOf (s.foldl addToGroups acc) k
        = bucketOf acc k ++ s.filter (fun t => t.lineColor = k)
  | [], acc => by simp
  | t :: s, acc => by
      rw [List.foldl_cons, bucketOf_foldl_addToGroups k s, bucketOf_addToGroups]
      by_cases hk : k = t.lineColor
      · rw [if_pos hk, List.filter_cons, if_pos (by simp [hk]), List.append_assoc]
        simp
      · rw [if_neg hk, List.filter_cons, if_neg (by simp; exact fun h => hk h.symm)]

theorem groupsWF_addToGroups {acc : FilteredBoard} (t : TaggedDeparture)
    (h : groupsWF acc) : groupsWF (addToGroups acc t) := by
  obtain ⟨hnd, hhom⟩ := h
  unfold addToGroups
  by_cases hAny : acc.any (fun p => p.1 = t.lineColor)
  · rw [if_pos hAny]
    constructor
    · have : (acc.map (fun p => if p.1 = t.lineColor then (p.1, p.2 ++ [t]) else p)).map Prod.fst
          = acc.map Prod.fst := by
        rw [List.map_map]
        refine List.map_congr_left ?_
        intro p _
        by_cases hp : p.1 = t.lineColor <;> simp [hp]
      rw [this]
      exact hnd
    · intro p hp
      rcases List.mem_map.mp hp with ⟨q, hq, hqe⟩
      by_cases hqt : q.1 = t.lineColor
      · rw [if_pos hqt] at hqe
        subst hqe
        intro x hx
        rcases List.mem_append.mp hx with hx | hx
        · exact hhom q hq x hx
        · rcases List.mem_singleton.mp hx with rfl
          exact hqt.symm
      · rw [if_neg hqt] at hqe
        subst hqe
        exact hhom q hq
  · rw [if_neg hAny]
    constructor
    · rw [List.map_append]
      refine List.Nodup.append hnd (by simp) ?_
      intro k hk1 hk2
      simp only [List.map_cons, List.map_nil, List.mem_singleton] at hk2
      subst hk2
      rcases List.mem_map.mp hk1 with ⟨p, hp, hpk⟩
      exact hAny (List.any_eq_true.mpr ⟨p, hp, by simp [hpk]⟩)
    · intro p hp
      rcases List.mem_append.mp hp with hp | hp
      · exact hhom p hp
      · rcases List.mem_singleton.mp hp with rfl
        intro x hx
        rcases List.mem_singleton.mp hx with rfl
        rfl

theorem groupsWF_foldl_addToGroups :
    ∀ (s : List TaggedDeparture) (acc : FilteredBoard),
      groupsWF acc → groupsWF (s.foldl addToGroups acc)
  | [], _, h => h
  | t :: s, acc, h =>
      groupsWF_foldl_addToGroups s (addToGroups acc t) (groupsWF_addToGroups t h)

theorem groupsWF_nil : groupsWF [] := by
  constructor
  · exact List.nodup_nil
  · intro p hp
    exact absurd hp (List.not_mem_nil p)

theorem flat_filter_eq_bucketOf (k : LineKey) :
    ∀ out : FilteredBoard, groupsWF out →
      (out.flatMap Prod.snd).filter (fun t => t.lineColor = k) = bucketOf out k
  | [], _ => rfl
  | p :: out, h => by
      obtain ⟨hnd, hhom⟩ := h
      have hnd2 : (p.1 :: out.map Prod.fst).Nodup := by
        rw [← List.map_cons]
        exact hnd
      have hcons := List.nodup_cons.mp hnd2
      have htail : groupsWF out := by
        constructor
        · exact hcons.2
        · intro q hq
          exact hhom q (by simp [hq])
      rw [List.flatMap_cons, List.filter_append,
        flat_filter_eq_bucketOf k out htail]
      by_cases hk : p.1 = k
      · have hfilter : p.2.filter (fun t => t.lineColor = k) = p.2 := by
          rw [List.filter_eq_self]
          intro x hx
          simp [hhom p (by simp) x hx, hk]
        have hnot : k ∉ out.map Prod.fst := by
          rw [← hk]
          exact hcons.1
        rw [hfilter, bucketOf_eq_nil_of_not_mem hnot, List.append_nil]
        unfold bucketOf
        rw [List.find?_cons_of_pos _ (by simp [hk])]
        rfl
      · have hfilter : p.2.filter (fun t => t.lineColor = k) = [] := by
          rw [List.filter_eq_nil_iff]
          intro x hx
          simp [hhom p (by simp) x hx, hk]
        rw [hfilter, List.nil_append]
        unfold bucketOf
        rw [List.find?_cons_of_neg _ (by simp [hk])]

theorem validKey_retainedTrains {b : Board} {isEast : Bool} (hv : validBoard b) :
    validKey taggedKey (retainedTrains b isEast) := by
  intro t ht
  rcases List.mem_flatMap.mp ht with ⟨color, _, ht2⟩
  rcases List.mem_filterMap.mp ht2 with ⟨train, htr, hsome⟩
  dsimp only at hsome
  split at hsome
  · rcases Option.some.injEq _ _ ▸ hsome with h
    have : t.train = train := by
      injection hsome with h2
      rw [← h2]
    rw [taggedKey, this]
    exact hv color train htr
  · exact Option.noConfusion hsome

theorem filterCore_bucket (b : Board) (isEast : Bool) (k : LineKey) :
    bucketOf (filterRoutesByDirectionCore b isEast) k
      = (sortByKey taggedKey (retainedTrains b isEast)).filter
          (fun t => t.lineColor = k) := by
  unfold filterRoutesByDirectionCore
  rw [bucketOf_foldl_addToGroups k _ [], bucketOf_nil, List.nil_append]

theorem groupsWF_filterCore (b : Board) (isEast : Bool) :
    groupsWF (filterRoutesByDirectionCore b isEast) :=
  groupsWF_foldl_addToGroups _ [] groupsWF_nil

/-! ### Geographic evaluation lemmas -/

theorem atan2_zero_one : atan2 0 1 = 0 := by
  unfold atan2
  rw [if_pos (by norm_num : (0:ℝ) < 1)]
  norm_num

theorem atan2_one_zero : atan2 1 0 = Real.pi / 2 := by
  unfold atan2
  rw [if_neg (by norm_num), if_pos rfl, if_pos (by norm_num : (0:ℝ) < 1)]

theorem calculateDistanceFromSF_self :
    calculateDistanceFromSF SF_LATITUDE SF_LONGITUDE = 0 := by
  simp only [calculateDistanceFromSF]
  norm_num [atan2_zero_one]

theorem distSF_eastLat_of_sin_zero (lon : ℝ)
    (h : Real.sin ((lon - SF_LONGITUDE) * Real.pi / 180 / 2) = 0) :
    calculateDistanceFromSF eastLat lon = 3959 * Real.pi := by
  have h1 : (eastLat - SF_LATITUDE) * Real.pi / 180 / 2 = Real.pi / 2 := by
    simp only [eastLat]
    ring
  simp only [calculateDistanceFromSF]
  rw [h1, Real.sin_pi_div_two, h]
  norm_num [atan2_one_zero]
  ring

theorem sin_dLon_westLon : Real.sin ((westLon - SF_LONGITUDE) * Real.pi / 180 / 2) = 0 := by
  have h : (westLon - SF_LONGITUDE) * Real.pi / 180 / 2 = 0 := by
    simp only [westLon]
    ring
  rw [h, Real.sin_zero]

theorem sin_dLon_eastLon : Real.sin ((eastLon - SF_LONGITUDE) * Real.pi / 180 / 2) = 0 := by
  have h : (eastLon - SF_LONGITUDE) * Real.pi / 180 / 2 = Real.pi := by
    simp only [eastLon]
    ring
  rw [h, Real.sin_pi]

theorem seven_lt_3959pi : (7 : ℝ) < 3959 * Real.pi := by
  nlinarith [Real.pi_gt_three]

theorem isEastOfSFBorder_eastPoint : isEastOfSFBorder eastLat eastLon = true := by
  unfold isEastOfSFBorder
  rw [distSF_eastLat_of_sin_zero eastLon sin_dLon_eastLon,
    if_neg (not_le.mpr (by rw [SF_BORDER_MILES]; exact seven_lt_3959pi))]
  simp only [gt_iff_lt, decide_eq_true_eq, eastLon]
  linarith

theorem isEastOfSFBorder_farWestLon : isEastOfSFBorder eastLat westLon = false := by
  unfold isEastOfSFBorder
  rw [distSF_eastLat_of_sin_zero westLon sin_dLon_westLon,
    if_neg (not_le.mpr (by rw [SF_BORDER_MILES]; exact seven_lt_3959pi))]
  simp only [gt_iff_lt, decide_eq_false_iff_not, westLon]
  exact lt_irrefl _

/-! ### Claim theorems: the direction heuristic and the direction filter -/

/-- Claim C6: direction classification returns Westbound (`false`) whenever
the haversine distance in miles from the reference point is at most the
7-mile border threshold, regardless of longitude; strictly outside the
threshold it returns Eastbound (`true`) exactly when the longitude is
strictly greater than the reference longitude. -/
theorem C6_classify_direction (latitude longitude : ℝ) :
    (calculateDistanceFromSF latitude longitude ≤ SF_BORDER_MILES →
      isEastOfSFBorder latitude longitude = false) ∧
    (SF_BORDER_MILES < calculateDistanceFromSF latitude longitude →
      (isEastOfSFBorder latitude longitude = true ↔ SF_LONGITUDE < longitude)) := by
  constructor
  · intro h
    unfold isEastOfSFBorder
    rw [if_pos h]
  · intro h
    unfold isEastOfSFBorder
    rw [if_neg (not_le.mpr h)]
    simp only [gt_iff_lt, decide_eq_true_eq]

/-- Witness for C6: at the reference point itself the distance is `0 ≤ 7`
and the classification is Westbound; at `(SF_LATITUDE + 180, SF_LONGITUDE)`
the distance is `3959π > 7` miles and, the longitude not exceeding the
reference longitude, the classification is Westbound as well. -/
theorem C6_classify_direction_witness :
    (calculateDistanceFromSF SF_LATITUDE SF_LONGITUDE ≤ SF_BORDER_MILES ∧
      isEastOfSFBorder SF_LATITUDE SF_LONGITUDE = false) ∧
    (SF_BORDER_MILES < calculateDistanceFromSF eastLat westLon ∧
      isEastOfSFBorder eastLat westLon = false) := by
  have h0 : calculateDistanceFromSF SF_LATITUDE SF_LONGITUDE ≤ SF_BORDER_MILES := by
    rw [calculateDistanceFromSF_self, SF_BORDER_MILES]
    norm_num
  have h1 : SF_BORDER_MILES < calculateDistanceFromSF eastLat westLon := by
    rw [distSF_eastLat_of_sin_zero westLon sin_dLon_westLon, SF_BORDER_MILES]
    exact seven_lt_3959pi
  refine ⟨⟨h0, (C6_classify_direction SF_LATITUDE SF_LONGITUDE).1 h0⟩, h1, ?_⟩
  have h2 := (C6_classify_direction eastLat westLon).2 h1
  have h3 : ¬(SF_LONGITUDE < westLon) := by
    rw [westLon]
    exact lt_irrefl _
  cases hE : isEastOfSFBorder eastLat westLon
  · rfl
  · exact absurd (h2.mp hE) h3

/-- Claim C1 (evaluation of the code at the failing input): the user point
classifies Eastbound, the board's only departure sits under the Eastbound
key `RedE` (aggregated from a `RICH`/`North` estimate), yet the filter
output is the empty object — the Eastbound-keyed departure is dropped,
because retention tests the raw feed direction (`"South" || "East"`)
instead of the key's direction component. -/
theorem C1_eastbound_key_dropped_for_east_user :
    isEastOfSFBorder eastLat eastLon = true ∧
    boardRedE LineKey.RedE = [depRichNorth] ∧
    filterRoutesByDirection boardRedE eastLat eastLon = [] := by
  refine ⟨isEastOfSFBorder_eastPoint, rfl, ?_⟩
  unfold filterRoutesByDirection
  rw [isEastOfSFBorder_eastPoint]
  decide

/-- Claim C2 (evaluation of the code at the failing input): for an
Eastbound-classified user, a board holding an `ANTC`/`South` departure under
the Westbound key `YellowW` and a `BERY`/`South` departure under the
Eastbound key `GreenE` filters to an object with *both* keys populated:
both trains pass the raw-direction test `direction === "South"`. -/
theorem C2_eastbound_and_westbound_keys_both_populated :
    isEastOfSFBorder eastLat eastLon = true ∧
    bucketOf (filterRoutesByDirection boardMixed eastLat eastLon) LineKey.YellowW ≠ [] ∧
    bucketOf (filterRoutesByDirection boardMixed eastLat eastLon) LineKey.GreenE ≠ [] := by
  refine ⟨isEastOfSFBorder_eastPoint, ?_, ?_⟩ <;>
  · unfold filterRoutesByDirection
    rw [isEastOfSFBorder_eastPoint]
    decide

/-! ### Nearest-station search -/

theorem closestStep_eq (cur : Coordinate) (accS : Option Station) (accD : WithTop ℝ)
    (st : Station) :
    closestStep cur (accS, accD) st
      = if ((stationDistance cur st : ℝ) : WithTop ℝ) < accD then
          (some st, ((stationDistance cur st : ℝ) : WithTop ℝ))
        else (accS, accD) := rfl

theorem findClosestStation_singleton (s : Station) (cur : Coordinate) :
    findClosestStation [s] cur = (some s, ((stationDistance cur s : ℝ) : WithTop ℝ)) := by
  unfold findClosestStation
  rw [List.foldl_cons, closestStep_eq, if_pos (WithTop.coe_lt_top _)]
  rfl

theorem findClosest_scan (cur : Coordinate) :
    ∀ (l : List Station) (accS : Option Station) (accD : WithTop ℝ),
      (l.foldl (closestStep cur) (accS, accD) = (accS, accD) ∧
        ∀ s ∈ l, accD ≤ ((stationDistance cur s : ℝ) : WithTop ℝ)) ∨
      (∃ i : Fin l.length,
        l.foldl (closestStep cur) (accS, accD)
          = (some (l.get i), ((stationDistance cur (l.get i) : ℝ) : WithTop ℝ)) ∧
        ((stationDistance cur (l.get i) : ℝ) : WithTop ℝ) < accD ∧
        (∀ s ∈ l, ((stationDistance cur (l.get i) : ℝ) : WithTop ℝ)
          ≤ ((stationDistance cur s : ℝ) : WithTop ℝ)) ∧
        (∀ j : Fin l.length, (j : ℕ) < (i : ℕ) →
          ((stationDistance cur (l.get i) : ℝ) : WithTop ℝ)
            < ((stationDistance cur (l.get j) : ℝ) : WithTop ℝ)))
  | [], accS, accD => by
      left
      constructor
      · rfl
      · intro s hs
        exact absurd hs (List.not_mem_nil s)
  | st :: l, accS, accD => by
      rw [List.foldl_cons]
      by_cases hlt : ((stationDistance cur st : ℝ) : WithTop ℝ) < accD
      · rw [closestStep_eq, if_pos hlt]
        rcases findClosest_scan cur l (some st) ((stationDistance cur st : ℝ) : WithTop ℝ)
          with ⟨heq, hall⟩ | ⟨i, heq, hlt2, hmin, hfirst⟩
        · right
          refine ⟨⟨0, by simp⟩, ?_, hlt, ?_, ?_⟩
          · simpa using heq
          · intro s hs
            rcases List.mem_cons.mp hs with h2 | h2
            · subst h2
              simp
            · simpa using hall s h2
          · intro j hj
            simp at hj
        · right
          refine ⟨⟨(i : ℕ) + 1, by have := i.isLt; simp only [List.length_cons]; omega⟩,
            ?_, hlt2.trans hlt, ?_, ?_⟩
          · simpa using heq
          · intro s hs
            rcases List.mem_cons.mp hs with h2 | h2
            · subst h2
              simpa using hlt2.le
            · simpa using hmin s h2
          · intro j hj
            rcases j with ⟨jv, hjlt⟩
            match jv, hjlt with
            | 0, _ => simpa using hlt2
            | jv + 1, hjlt =>
                have hj2 : jv < (i : ℕ) := by
                  simp only [Fin.mk_lt_mk] at hj
                  omega
                have hlen : jv < l.length := by
                  simp only [List.length_cons] at hjlt
                  omega
                have := hfirst ⟨jv, hlen⟩ hj2
                simpa using this
      · rw [closestStep_eq, if_neg hlt]
        rcases findClosest_scan cur l accS accD
          with ⟨heq, hall⟩ | ⟨i, heq, hlt2, hmin, hfirst⟩
        · left
          refine ⟨heq, ?_⟩
          intro s hs
          rcases List.mem_cons.mp hs with h2 | h2
          · subst h2
            exact not_lt.mp hlt
          · exact hall s h2
        · right
          refine ⟨⟨(i : ℕ) + 1, by have := i.isLt; simp only [List.length_cons]; omega⟩,
            ?_, hlt2, ?_, ?_⟩
          · simpa using heq
          · intro s hs
            rcases List.mem_cons.mp hs with h2 | h2
            · subst h2
              exact (hlt2.trans_le (not_lt.mp hlt)).le
            · simpa using hmin s h2
          · intro j hj
            rcases j with ⟨jv, hjlt⟩
            match jv, hjlt with
            | 0, _ => simpa using hlt2.trans_le (not_lt.mp hlt)
            | jv + 1, hjlt =>
                have hj2 : jv < (i : ℕ) := by
                  simp only [Fin.mk_lt_mk] at hj
                  omega
                have hlen : jv < l.length := by
                  simp only [List.length_cons] at hjlt
                  omega
                have := hfirst ⟨jv, hlen⟩ hj2
                simpa using this

/-- Claim C5: on a non-empty directory, the search returns the station of
minimal haversine distance (in kilometers) together with that distance, and
among equally-near stations the first in directory order wins: every
earlier station is *strictly* farther. -/
theorem C5_nearest_station_minimal (stations : List Station) (cur : Coordinate)
    (h : stations ≠ []) :
    ∃ i : Fin stations.length,
      findClosestStation stations cur
        = (some (stations.get i), ((stationDistance cur (stations.get i) : ℝ) : WithTop ℝ)) ∧
      (∀ s ∈ stations, stationDistance cur (stations.get i) ≤ stationDistance cur s) ∧
      (∀ j : Fin stations.length, (j : ℕ) < (i : ℕ) →
        stationDistance cur (stations.get j) > stationDistance cur (stations.get i)) := by
  rcases findClosest_scan cur stations none ⊤ with ⟨_, hall⟩ | ⟨i, heq, _, hmin, hfirst⟩
  · rcases List.exists_mem_of_ne_nil stations h with ⟨s0, hs0⟩
    have := hall s0 hs0
    exact absurd this (by simp)
  · refine ⟨i, heq, ?_, ?_⟩
    · intro s hs
      exact WithTop.coe_le_coe.mp (hmin s hs)
    · intro j hj
      exact WithTop.coe_lt_coe.mp (hfirst j hj)

/-- Witness for C5: a singleton directory is non-empty, and the theorem
instantiates to it. -/
theorem C5_nearest_station_minimal_witness :
    ([stRICH] ≠ []) ∧
    ∃ i : Fin ([stRICH].length),
      findClosestStation [stRICH] originCoord
        = (some ([stRICH].get i),
            ((stationDistance originCoord ([stRICH].get i) : ℝ) : WithTop ℝ)) ∧
      (∀ s ∈ [stRICH], stationDistance originCoord ([stRICH].get i)
        ≤ stationDistance originCoord s) ∧
      (∀ j : Fin ([stRICH].length), (j : ℕ) < (i : ℕ) →
        stationDistance originCoord ([stRICH].get j)
          > stationDistance originCoord ([stRICH].get i)) :=
  ⟨by simp, C5_nearest_station_minimal [stRICH] originCoord (by simp)⟩

/-- Counterexample to claim C4: evaluated on the empty directory, the code
does not fail with an InvalidInput error — the loop body never runs and the
function returns the result object `{station: null, distance: Infinity}`. -/
theorem C4_empty_directory_counterexample :
    findClosestStation [] originCoord = (none, (⊤ : WithTop ℝ)) := rfl

/-- Claim C4 (amended): for the empty station directory, nearest-station
resolution does not fail: for every coordinate it returns the result object
with a `null` station and an infinite distance. -/
theorem C4_empty_directory_returns_null_infinity (cur : Coordinate) :
    findClosestStation [] cur = (none, (⊤ : WithTop ℝ)) := rfl

/-! ### The orchestrator -/

/-- Claim C3 (evaluation of the code at the failing input): when the live
location fails and the cache holds a coordinate, `run` proceeds through the
pipeline with the cached coordinate and renders the departure widget — it
does not terminate with the no-location outcome, regardless of the cache's
age (no expiry is checked) — but the `Using last known location` marker is
`false`: the code guards it with `location === getLastLocation()`, an
object-identity comparison that never holds because `JSON.parse` returns a
fresh object on each call.  When the cache is absent, `run` terminates with
the no-location outcome. -/
theorem C3_cached_location_used_but_never_marked :
    (∃ cl fb, runWidget none (some cachedCoord) (some [stRICH]) (some []) 0
        = RunOutcome.widgetView cachedCoord cl fb false) ∧
    runWidget none none (some [stRICH]) (some []) 0 = RunOutcome.locationErrorView := by
  constructor
  · refine ⟨(some stRICH, ((stationDistance cachedCoord stRICH : ℝ) : WithTop ℝ)),
      filterRoutesByDirection (formatDepartures 0 [])
        cachedCoord.latitude cachedCoord.longitude, ?_⟩
    simp only [runWidget]
    rw [findClosestStation_singleton]
    rfl
  · rfl

/-! ### Claim theorems: the aggregator -/

/-- Claim C7: aggregation only fills the fixed eight keys — each bucket `k`
of the output is exactly the sorted list of departures built from the
estimates whose `(destination, direction)` pair maps to `k` (pairs without
a table entry contribute zero departures, silently), all eight keys are
present even when their lists are empty (the board is total on the
eight-element key domain), and the concatenation of all eight buckets is a
permutation of the mapped input estimates: each appears exactly once. -/
theorem C7_aggregate_fixed_domain (now : Int) (etd : List EtdEntry) :
    (∀ k, formatDepartures now etd k = sortByKey depKey (bucketSource now etd k)) ∧
    List.Perm (keyOrder.flatMap (fun k => formatDepartures now etd k))
      (mappedDepartures now etd) := by
  constructor
  · intro k
    exact formatDepartures_apply now etd k
  · refine (flatMap_perm_of_forall _ _ keyOrder ?_).trans (keyOrder_bucketSource_perm now etd)
    intro k _
    rw [formatDepartures_apply]
    exact sortByKey_perm depKey _

/-- Counterexample to claim C8: with a sentinel (non-numeric) minutes string
in the feed, the `YellowE` bucket comes out as `[invalid-date, now+5min]`,
whose instants are not non-decreasing — the JavaScript `<=` on an invalid
(`NaN`) date is always false. -/
theorem C8_sentinel_bucket_not_sorted :
    ¬ List.Chain' (fun a b => instantLe a.actualDepartureTime b.actualDepartureTime = true)
        (formatDepartures 0 etdSentinel LineKey.YellowE) := by
  intro hchain
  have hb : formatDepartures 0 etdSentinel LineKey.YellowE
      = [mkDeparture 0 entrySentinel estSentinel1, mkDeparture 0 entrySentinel estSentinel2] := by
    decide
  rw [hb] at hchain
  have h1 := (List.chain'_cons.mp hchain).1
  exact absurd h1 (by decide)

/-- Claim C8 (amended): when every minutes string parses numerically, every
bucket of `formatDepartures` has non-decreasing departure instants, and the
sort is stable: filtering a bucket to any fixed instant value yields exactly
the input-ordered departures of that instant. -/
theorem C8_buckets_sorted_and_stable (now : Int) (etd : List EtdEntry)
    (h : ∀ g ∈ etd, ∀ e ∈ g.estimate, (parseIntJS e.minutes).isSome = true) (k : LineKey) :
    List.Chain' (fun a b => instantLe a.actualDepartureTime b.actualDepartureTime = true)
      (formatDepartures now etd k) ∧
    ∀ t : Option Int,
      (formatDepartures now etd k).filter (fun d => d.actualDepartureTime = t)
        = (bucketSource now etd k).filter (fun d => d.actualDepartureTime = t) := by
  have hvb : validKey depKey (bucketSource now etd k) := by
    intro d hd
    rcases List.mem_flatMap.mp hd with ⟨g, hg, hd2⟩
    rcases List.mem_filterMap.mp hd2 with ⟨e, he, hsome⟩
    split at hsome
    · have hd3 : d = mkDeparture now g e := by
        injection hsome with h2
        rw [← h2]
      rw [hd3]
      simp only [depKey, mkDeparture]
      rcases Option.isSome_iff_exists.mp (h g hg e he) with ⟨m, hm⟩
      rw [hm]
      rfl
    · exact Option.noConfusion hsome
  constructor
  · rw [formatDepartures_apply]
    have hp := sortByKey_pairwise depKey (bucketSource now etd k) hvb
    refine List.Pairwise.chain' (List.Pairwise.imp_of_mem ?_ hp)
    intro a b ha hb hab
    have hva := hvb a (mem_sortByKey.mp ha)
    have hvb2 := hvb b (mem_sortByKey.mp hb)
    obtain ⟨x, hx⟩ := Option.isSome_iff_exists.mp hva
    obtain ⟨y, hy⟩ := Option.isSome_iff_exists.mp hvb2
    simp only [depKey] at hx hy
    simp only [keyLe, depKey, hx, hy, sortCompare, jsSub, Option.getD_some] at hab
    simp only [instantLe, hx, hy, decide_eq_true_eq]
    omega
  · intro t
    rw [formatDepartures_apply,
      filter_sortByKey (fun d => d.actualDepartureTime = t) _ hvb]
    refine sortByKey_eq_self depKey ?_
    refine List.pairwise_of_forall_mem_list ?_
    intro a ha b hb
    have hat := (List.mem_filter.mp ha).2
    have hbt := (List.mem_filter.mp hb).2
    have hva := hvb a (List.mem_of_mem_filter ha)
    obtain ⟨x, hx⟩ := Option.isSome_iff_exists.mp hva
    simp only [decide_eq_true_eq] at hat hbt
    simp only [keyLe, depKey, hat, hbt, sortCompare, jsSub]
    rcases t with _ | v
    · simp
    · simp

/-- Witness for C8 (amended): the all-numeric payload `etdNumeric`
satisfies the hypothesis, and the theorem instantiates to it. -/
theorem C8_buckets_sorted_and_stable_witness :
    (∀ g ∈ etdNumeric, ∀ e ∈ g.estimate, (parseIntJS e.minutes).isSome = true) ∧
    (List.Chain' (fun a b => instantLe a.actualDepartureTime b.actualDepartureTime = true)
        (formatDepartures 0 etdNumeric LineKey.YellowE) ∧
      ∀ t : Option Int,
        (formatDepartures 0 etdNumeric LineKey.YellowE).filter
            (fun d => d.actualDepartureTime = t)
          = (bucketSource 0 etdNumeric LineKey.YellowE).filter
              (fun d => d.actualDepartureTime = t)) :=
  ⟨by decide, C8_buckets_sorted_and_stable 0 etdNumeric (by decide) LineKey.YellowE⟩

/-- Claim C10: an estimate whose minutes string is non-numeric but whose
`(destination, direction)` pair has a table entry still yields a departure:
it appears in its bucket (not dropped), its `actualDepartureTime` is the
invalid (`NaN`-based) date `none` — not normalized to `now` — and the raw
sort comparator `a - b` yields `NaN` (`none`) for every comparison
involving it. -/
theorem C10_sentinel_departure_emitted (now : Int) (etd : List EtdEntry)
    (g : EtdEntry) (e : Estimate) (k : LineKey)
    (hg : g ∈ etd) (he : e ∈ g.estimate)
    (hmin : parseIntJS e.minutes = none)
    (hk : getLineColor g.abbreviation e.direction = some k) :
    mkDeparture now g e ∈ formatDepartures now etd k ∧
    (mkDeparture now g e).actualDepartureTime = none ∧
    (∀ x : Option Int, jsSub (mkDeparture now g e).actualDepartureTime x = none) ∧
    (∀ x : Option Int, jsSub x (mkDeparture now g e).actualDepartureTime = none) := by
  have hinst : (mkDeparture now g e).actualDepartureTime = none := by
    simp [mkDeparture, hmin]
  refine ⟨?_, hinst, ?_, ?_⟩
  · rw [formatDepartures_apply, mem_sortByKey]
    refine List.mem_flatMap.mpr ⟨g, hg, ?_⟩
    refine List.mem_filterMap.mpr ⟨e, he, ?_⟩
    rw [if_pos hk]
  · intro x
    rw [hinst]
    rcases x with _ | v <;> rfl
  · intro x
    rw [hinst]
    rcases x with _ | v <;> rfl

/-- Witness for C10: the concrete `RICH`/`North` estimate with minutes
`"Leaving"`, at `now = 0`, under key `RedE`. -/
theorem C10_sentinel_departure_emitted_witness :
    (entryLeaving ∈ etdLeaving ∧ estLeaving ∈ entryLeaving.estimate ∧
      parseIntJS estLeaving.minutes = none ∧
      getLineColor entryLeaving.abbreviation estLeaving.direction = some LineKey.RedE) ∧
    (mkDeparture 0 entryLeaving estLeaving ∈ formatDepartures 0 etdLeaving LineKey.RedE ∧
      (mkDeparture 0 entryLeaving estLeaving).actualDepartureTime = none ∧
      (∀ x : Option Int,
        jsSub (mkDeparture 0 entryLeaving estLeaving).actualDepartureTime x = none) ∧
      (∀ x : Option Int,
        jsSub x (mkDeparture 0 entryLeaving estLeaving).actualDepartureTime = none)) :=
  ⟨⟨by decide, by decide, by decide, by decide⟩,
    C10_sentinel_departure_emitted 0 etdLeaving entryLeaving estLeaving LineKey.RedE
      (by decide) (by decide) (by decide) (by decide)⟩

/-! ### Claim theorem: idempotence of the global re-sort -/

/-! ### Segment structure of the sort in the presence of invalid keys -/

theorem sortCompare_none_left (key : α → Option Int) (x y : α) (h : key x = none) :
    sortCompare (key x) (key y) = 0 := by
  rw [h]
  rcases key y with _ | v <;> rfl

theorem sortCompare_none_right (key : α → Option Int) (x y : α) (h : key y = none) :
    sortCompare (key x) (key y) = 0 := by
  rw [h]
  rcases key x with _ | v <;> rfl

theorem insertByKey_of_key_none {key : α → Option Int} {x : α} (h : key x = none) :
    ∀ σ : List α, insertByKey key x σ = x :: σ
  | [] => rfl
  | y :: ys => by
      rw [insertByKey_cons, if_pos]
      rw [sortCompare_none_left key x y h]

theorem sortByKey_cons_none {key : α → Option Int} {n : α} (h : key n = none)
    (r : List α) : sortByKey key (n :: r) = n :: sortByKey key r := by
  rw [sortByKey_cons, insertByKey_of_key_none h]

theorem insertByKey_append_none {key : α → Option Int} (a n : α) (h : key n = none) :
    ∀ (A R : List α), insertByKey key a (A ++ n :: R) = insertByKey key a A ++ n :: R
  | [], R => by
      have hc : sortCompare (key a) (key n) ≤ 0 := by
        rw [sortCompare_none_right key a n h]
      rw [List.nil_append, insertByKey_cons, if_pos hc, insertByKey_nil]
      rfl
  | y :: A, R => by
      rw [List.cons_append, insertByKey_cons, insertByKey_cons]
      by_cases hc : sortCompare (key a) (key y) ≤ 0
      · rw [if_pos hc, if_pos hc]
        rfl
      · rw [if_neg hc, if_neg hc, insertByKey_append_none a n h A R]
        rfl

theorem dropWhile_head_false (p : α → Bool) :
    ∀ (l : List α) (b : α) (w : List α), l.dropWhile p = b :: w → p b = false
  | [], b, w => by intro h; exact absurd h (by simp)
  | a :: l, b, w => by
      intro h
      rw [List.dropWhile_cons] at h
      by_cases ha : p a = true
      · rw [if_pos ha] at h
        exact dropWhile_head_false p l b w h
      · rw [if_neg ha] at h
        injection h with h1 _
        rw [← h1]
        exact Bool.not_eq_true _ ▸ ha

theorem sortByKey_seg (key : α → Option Int) :
    ∀ N (r : List α), r.length ≤ N →
      sortByKey key r
        = sortByKey key (r.takeWhile (fun e => (key e).isSome))
            ++ sortByKey key (r.dropWhile (fun e => (key e).isSome))
  | 0, [], _ => rfl
  | N + 1, [], _ => rfl
  | N + 1, a :: r, hN => by
      by_cases ha : (key a).isSome = true
      · rw [List.takeWhile_cons_of_pos (by simpa using ha),
          List.dropWhile_cons_of_pos (by simpa using ha),
          sortByKey_cons, sortByKey_cons,
          sortByKey_seg key N r (by simp only [List.length_cons] at hN; omega)]
        rcases hd : r.dropWhile (fun e => (key e).isSome) with _ | ⟨n, w⟩
        · simp [sortByKey_nil]
        · have hn : key n = none := by
            have := dropWhile_head_false (fun e => (key e).isSome) r n w hd
            simpa using this
          rw [sortByKey_cons_none hn, insertByKey_append_none a n hn]
      · have ha2 : (fun e => (key e).isSome) a = false := by simpa using ha
        rw [List.takeWhile_cons_of_neg (by simp [ha2]), List.dropWhile_cons_of_neg (by simp [ha2])]
        simp [sortByKey_nil]

theorem insertByKey_eq_takeWhile_dropWhile (key : α → Option Int) (x : α) :
    ∀ σ : List α,
      insertByKey key x σ
        = σ.takeWhile (fun y => decide (0 < sortCompare (key x) (key y)))
            ++ x :: σ.dropWhile (fun y => decide (0 < sortCompare (key x) (key y)))
  | [] => rfl
  | y :: ys => by
      rw [insertByKey_cons]
      by_cases hc : sortCompare (key x) (key y) ≤ 0
      · have hq : (decide (0 < sortCompare (key x) (key y))) = false := by
          simpa using not_lt.mpr hc
        rw [if_pos hc, List.takeWhile_cons_of_neg (by simp [hq]),
          List.dropWhile_cons_of_neg (by simp [hq])]
        rfl
      · have hq : (decide (0 < sortCompare (key x) (key y))) = true := by
          simpa using not_le.mp hc
        rw [if_neg hc, List.takeWhile_cons_of_pos (by simp [hq]),
          List.dropWhile_cons_of_pos (by simp [hq]),
          insertByKey_eq_takeWhile_dropWhile key x ys]
        rfl

theorem takeWhile_append_of_head_false (q : α → Bool) :
    ∀ (A B : List α), (∀ b, B.head? = some b → q b = false) →
      (A ++ B).takeWhile q = A.takeWhile q
  | [], [], _ => rfl
  | [], b :: B, h => by
      rw [List.nil_append, List.takeWhile_cons_of_neg]
      · rfl
      · simp [h b rfl]
  | a :: A, B, h => by
      rw [List.cons_append]
      by_cases ha : q a = true
      · rw [List.takeWhile_cons_of_pos ha, List.takeWhile_cons_of_pos ha,
          takeWhile_append_of_head_false q A B h]
      · rw [List.takeWhile_cons_of_neg (by simp [ha]), List.takeWhile_cons_of_neg (by simp [ha])]

theorem barrier_tail {key : α → Option Int} {P : α → Bool} {x : α} {r : List α}
    (hB : Barrier key P (x :: r)) : Barrier key P r := by
  intro u y m z v hsplit hy hz hcmp
  refine hB (x :: u) y m z v ?_ hy hz hcmp
  rw [hsplit]
  simp

theorem filter_sortByKey_of_barrier (key : α → Option Int) (P : α → Bool) :
    ∀ m : List α, Barrier key P m → (sortByKey key m).filter P = m.filter P
  | [], _ => rfl
  | x :: rest, hB => by
      have hBr : Barrier key P rest := barrier_tail hB
      have hIH := filter_sortByKey_of_barrier key P rest hBr
      rw [sortByKey_cons]
      by_cases hP : P x = true
      · rcases hkx : key x with _ | v
        · rw [insertByKey_of_key_none hkx, List.filter_cons_of_pos hP,
            List.filter_cons_of_pos hP, hIH]
        · rw [insertByKey_eq_takeWhile_dropWhile key x (sortByKey key rest)]
          have hTnil : ((sortByKey key rest).takeWhile
              (fun y => decide (0 < sortCompare (key x) (key y)))).filter P = [] := by
            rw [List.filter_eq_nil_iff]
            intro y hy hPy
            have hqy := List.mem_takeWhile_imp hy
            have hcmp : 0 < sortCompare (key x) (key y) := by simpa using hqy
            have hhead : ∀ b,
                (sortByKey key (rest.dropWhile (fun e => (key e).isSome))).head? = some b →
                  (fun y2 => decide (0 < sortCompare (key x) (key y2))) b = false := by
              intro b hb
              rcases hdw : rest.dropWhile (fun e => (key e).isSome) with _ | ⟨n, w⟩
              · rw [hdw] at hb
                exact absurd hb (by simp [sortByKey_nil])
              · have hn : key n = none := by
                  have := dropWhile_head_false (fun e => (key e).isSome) rest n w hdw
                  simpa using this
                rw [hdw, sortByKey_cons_none hn] at hb
                have hbn : b = n := by
                  simpa using hb.symm
                subst hbn
                simp [sortCompare_none_right key x b hn]
            have hseg := sortByKey_seg key rest.length rest le_rfl
            have ht2 : (sortByKey key rest).takeWhile
                (fun y2 => decide (0 < sortCompare (key x) (key y2)))
                = (sortByKey key (rest.takeWhile (fun e => (key e).isSome))).takeWhile
                    (fun y2 => decide (0 < sortCompare (key x) (key y2))) := by
              rw [hseg, takeWhile_append_of_head_false _ _ _ hhead]
            rw [ht2] at hy
            have hyTW : y ∈ rest.takeWhile (fun e => (key e).isSome) :=
              mem_sortByKey.mp ((List.takeWhile_sublist _).subset hy)
            rcases List.append_of_mem hyTW with ⟨t1, t2, hsplit2⟩
            have hTD : rest.takeWhile (fun e => (key e).isSome)
                ++ rest.dropWhile (fun e => (key e).isSome) = rest :=
              List.takeWhile_append_dropWhile _ _
            have hrest : rest
                = t1 ++ y :: (t2 ++ rest.dropWhile (fun e => (key e).isSome)) := by
              conv_lhs => rw [← hTD]
              rw [hsplit2, List.append_assoc, List.cons_append]
            have ht1 : ∀ e ∈ t1, (key e).isSome = true := by
              intro e he
              have hmem : e ∈ rest.takeWhile (fun e2 => (key e2).isSome) := by
                rw [hsplit2]
                exact List.mem_append_left _ he
              have := List.mem_takeWhile_imp hmem
              simpa using this
            have hsplitm : x :: rest
                = [] ++ x :: t1 ++ y :: (t2 ++ rest.dropWhile (fun e => (key e).isSome)) := by
              conv_lhs => rw [hrest]
              simp
            rcases hB [] x t1 y (t2 ++ rest.dropWhile (fun e => (key e).isSome))
                hsplitm hP hPy hcmp with ⟨n, hn1, hn2⟩
            have := ht1 n hn1
            rw [hn2] at this
            exact absurd this (by simp)
          rw [List.filter_append, hTnil, List.nil_append, List.filter_cons_of_pos hP,
            List.filter_cons_of_pos hP]
          congr 1
          have hsplitσ : ((sortByKey key rest).takeWhile
                  (fun y => decide (0 < sortCompare (key x) (key y))))
                ++ ((sortByKey key rest).dropWhile
                  (fun y => decide (0 < sortCompare (key x) (key y))))
              = sortByKey key rest :=
            List.takeWhile_append_dropWhile _ _
          have hfull := hIH
          rw [← hsplitσ, List.filter_append, hTnil, List.nil_append] at hfull
          exact hfull
      · rw [filter_insertByKey_neg P (Bool.not_eq_true _ ▸ hP) (sortByKey key rest),
          List.filter_cons_of_neg hP, hIH]

/-! ### Segment-sortedness and contiguity -/

theorem segSorted_of_pairwise {key : α → Option Int} {l : List α}
    (h : l.Pairwise (keyLe key)) : SegSorted key l := by
  intro u x m z v hsplit _ _ _
  rw [hsplit] at h
  exact (List.pairwise_append.mp h).2.2 x (by simp) z (by simp)

theorem segSorted_cons_none {key : α → Option Int} {n : α} (hn : key n = none)
    {B : List α} (hB : SegSorted key B) : SegSorted key (n :: B) := by
  intro u x m z v hsplit hm hx hz
  rcases u with _ | ⟨e, u2⟩
  · rw [List.nil_append] at hsplit
    injection hsplit with h1 _
    rw [← h1, hn] at hx
    exact absurd hx (by simp)
  · rw [List.cons_append] at hsplit
    injection hsplit with _ h2
    exact hB u2 x m z v h2 hm hx hz

theorem segSorted_append_aux {key : α → Option Int} {a n : α} (hn : key n = none) :
    ∀ (m : List α) (A : List α) (z : α) (v B : List α),
      A ++ n :: B = m ++ z :: v →
      (∀ e ∈ m, (key e).isSome = true) →
      (key z).isSome = true →
      (∀ e ∈ A, keyLe key a e) →
      keyLe key a z
  | [], A, z, v, B => by
      intro hsplit _ hz ha
      rcases A with _ | ⟨g, A2⟩
      · rw [List.nil_append, List.nil_append] at hsplit
        injection hsplit with h1 _
        rw [← h1, hn] at hz
        exact absurd hz (by simp)
      · rw [List.cons_append, List.nil_append] at hsplit
        injection hsplit with h1 _
        rw [← h1]
        exact ha g (by simp)
  | f :: m2, A, z, v, B => by
      intro hsplit hm hz ha
      rcases A with _ | ⟨g, A2⟩
      · rw [List.nil_append, List.cons_append] at hsplit
        injection hsplit with h1 _
        have hf := hm f (by simp)
        rw [← h1, hn] at hf
        exact absurd hf (by simp)
      · rw [List.cons_append, List.cons_append] at hsplit
        injection hsplit with _ h2
        exact segSorted_append_aux hn m2 A2 z v B h2
          (fun e he => hm e (by simp [he])) hz (fun e he => ha e (by simp [he]))

theorem segSorted_append {key : α → Option Int} {n : α} (hn : key n = none) :
    ∀ (A B : List α), A.Pairwise (keyLe key) → SegSorted key B →
      SegSorted key (A ++ n :: B)
  | [], B, _, hB => by
      rw [List.nil_append]
      exact segSorted_cons_none hn hB
  | a :: A, B, hA, hB => by
      intro u x m z v hsplit hm hx hz
      rcases u with _ | ⟨e, u2⟩
      · rw [List.cons_append, List.nil_append] at hsplit
        injection hsplit with h1 h2
        subst h1
        exact segSorted_append_aux hn m A z v B h2 hm hz
          (fun e he => List.rel_of_pairwise_cons hA he)
      · rw [List.cons_append, List.cons_append] at hsplit
        injection hsplit with _ h2
        exact segSorted_append hn A B hA.of_cons hB u2 x m z v h2 hm hx hz

theorem contig_tail {P : α → Bool} {x : α} {r : List α}
    (h : Contig P (x :: r)) : Contig P r := by
  intro u y m z v hsplit hy hz
  refine h (x :: u) y m z v ?_ hy hz
  rw [hsplit]
  simp

theorem contig_suffix {P : α → Bool} :
    ∀ (u v : List α), Contig P (u ++ v) → Contig P v
  | [], _, h => h
  | a :: u, v, h => contig_suffix u v (contig_tail (by simpa using h))

theorem contigAux1 (P : α → Bool) :
    ∀ (m b2 : List α) (z : α) (v c : List α),
      m ++ z :: v = b2 ++ c →
      P z = true →
      (∀ e ∈ b2, P e = true) →
      (∀ e ∈ c, P e = false) →
      ∀ e ∈ m, P e = true
  | [], _, _, _, _ => by
      intro _ _ _ _ e he
      exact absurd he (List.not_mem_nil e)
  | f :: m2, b2, z, v, c => by
      intro hsplit hz hb hc e he
      rcases b2 with _ | ⟨g2, b3⟩
      · rw [List.nil_append] at hsplit
        have hzc : z ∈ c := by
          rw [← hsplit]
          simp
        rw [hc z hzc] at hz
        exact Bool.noConfusion hz
      · rw [List.cons_append] at hsplit
        injection hsplit with h1 h2
        rcases List.mem_cons.mp he with h3 | h3
        · rw [h3, h1]
          exact hb g2 (by simp)
        · exact contigAux1 P m2 b3 z v c h2 hz (fun e2 he2 => hb e2 (by simp [he2])) hc e h3
  termination_by m => m.length

theorem contigAux2 (P : α → Bool) :
    ∀ (u b c : List α),
      (∀ e ∈ b, P e = true) →
      (∀ e ∈ c, P e = false) →
      ∀ (x : α) (m : List α) (z : α) (v : List α),
        b ++ c = u ++ x :: m ++ z :: v →
        P x = true → P z = true →
        ∀ e ∈ m, P e = true
  | [], b, c => by
      intro hb hc x m z v hsplit hx hz
      rcases b with _ | ⟨g, b2⟩
      · rw [List.nil_append, List.nil_append] at hsplit
        have hxc : x ∈ c := by
          rw [hsplit]
          simp
        rw [hc x hxc] at hx
        exact Bool.noConfusion hx
      · rw [List.cons_append, List.nil_append] at hsplit
        injection hsplit with _ h2
        exact contigAux1 P m b2 z v c h2.symm hz
          (fun e he => hb e (by simp [he])) hc
  | e0 :: u2, b, c => by
      intro hb hc x m z v hsplit hx hz
      rcases b with _ | ⟨g, b2⟩
      · rw [List.nil_append, List.cons_append] at hsplit
        have hxc : x ∈ c := by
          rw [hsplit]
          simp
        rw [hc x hxc] at hx
        exact Bool.noConfusion hx
      · rw [List.cons_append, List.cons_append] at hsplit
        injection hsplit with _ h2
        exact contigAux2 P u2 b2 c (fun e he => hb e (by simp [he])) hc x m z v h2 hx hz

theorem contig_of_decomp (P : α → Bool) :
    ∀ (a b c : List α),
      (∀ e ∈ a, P e = false) →
      (∀ e ∈ b, P e = true) →
      (∀ e ∈ c, P e = false) →
      Contig P (a ++ (b ++ c))
  | [], b, c => by
      intro _ hb hc
      intro u x m z v hsplit hx hz
      rw [List.nil_append] at hsplit
      exact contigAux2 P u b c hb hc x m z v hsplit hx hz
  | a0 :: a2, b, c => by
      intro ha hb hc
      intro u x m z v hsplit hx hz
      rcases u with _ | ⟨e0, u2⟩
      · rw [List.cons_append, List.nil_append] at hsplit
        injection hsplit with h1 _
        rw [← h1, ha a0 (by simp)] at hx
        exact Bool.noConfusion hx
      · rw [List.cons_append, List.cons_append] at hsplit
        injection hsplit with _ h2
        exact contig_of_decomp P a2 b c (fun e he => ha e (by simp [he])) hb hc
          u2 x m z v h2 hx hz

theorem validKey_takeWhile (key : α → Option Int) (r : List α) :
    validKey key (r.takeWhile (fun e => (key e).isSome)) := by
  intro e he
  have := List.mem_takeWhile_imp he
  simpa using this

theorem segSorted_filter_sortByKey (key : α → Option Int) (P : α → Bool) :
    ∀ (N : ℕ) (r : List α), r.length ≤ N → Contig P r →
      SegSorted key ((sortByKey key r).filter P)
  | 0, [], _, _ => segSorted_of_pairwise List.Pairwise.nil
  | Nat.succ N, [], _, _ => segSorted_of_pairwise List.Pairwise.nil
  | Nat.succ N, a :: r, hN, hC => by
      have hlen : r.length ≤ N := by
        simp only [List.length_cons] at hN
        omega
      rcases hka : key a with _ | v
      · rw [sortByKey_cons_none hka, List.filter_cons]
        by_cases hPa : P a = true
        · rw [if_pos hPa]
          exact segSorted_cons_none hka
            (segSorted_filter_sortByKey key P N r hlen (contig_tail hC))
        · rw [if_neg hPa]
          exact segSorted_filter_sortByKey key P N r hlen (contig_tail hC)
      · have hseg := sortByKey_seg key (a :: r).length (a :: r) le_rfl
        have hTD : (a :: r).takeWhile (fun e => (key e).isSome)
            ++ (a :: r).dropWhile (fun e => (key e).isSome) = a :: r :=
          List.takeWhile_append_dropWhile _ _
        have hvtw : validKey key ((a :: r).takeWhile (fun e => (key e).isSome)) :=
          validKey_takeWhile key (a :: r)
        have hPF1 : (((sortByKey key ((a :: r).takeWhile (fun e => (key e).isSome))).filter
            P)).Pairwise (keyLe key) :=
          List.Pairwise.sublist (List.filter_sublist _)
            (sortByKey_pairwise key _ hvtw)
        rw [hseg]
        rcases hdw : (a :: r).dropWhile (fun e => (key e).isSome) with _ | ⟨n, w⟩
        · rw [sortByKey_nil, List.append_nil]
          exact segSorted_of_pairwise hPF1
        · have hn : key n = none := by
            have := dropWhile_head_false (fun e => (key e).isSome) (a :: r) n w hdw
            simpa using this
          have hlenw : w.length ≤ N := by
            have hlq := congrArg List.length hTD
            rw [hdw] at hlq
            simp only [List.length_append, List.length_cons] at hlq
            omega
          have hCw : Contig P w := by
            have hsufx : a :: r
                = ((a :: r).takeWhile (fun e => (key e).isSome) ++ [n]) ++ w := by
              rw [List.append_assoc]
              simp only [List.singleton_append]
              rw [← hdw]
              exact hTD.symm
            exact contig_suffix _ w (hsufx ▸ hC)
          have hIHw := segSorted_filter_sortByKey key P N w hlenw hCw
          rw [sortByKey_cons_none hn, List.filter_append, List.filter_cons]
          by_cases hPn : P n = true
          · rw [if_pos hPn]
            exact segSorted_append hn _ _ hPF1 hIHw
          · rw [if_neg hPn]
            by_cases hF1 :
                ((sortByKey key ((a :: r).takeWhile (fun e => (key e).isSome))).filter P) = []
            · rw [hF1, List.nil_append]
              exact hIHw
            · have hF2 : (sortByKey key w).filter P = [] := by
                rw [List.filter_eq_nil_iff]
                intro z hz hPz
                rcases List.exists_mem_of_ne_nil _ hF1 with ⟨x, hx⟩
                have hx1 := List.mem_filter.mp hx
                have hPx : P x = true := hx1.2
                have hxtw : x ∈ (a :: r).takeWhile (fun e => (key e).isSome) :=
                  mem_sortByKey.mp hx1.1
                have hzw : z ∈ w := mem_sortByKey.mp hz
                rcases List.append_of_mem hxtw with ⟨u1, m1, hxsplit⟩
                rcases List.append_of_mem hzw with ⟨m2, v2, hzsplit⟩
                have hr2 : a :: r = (u1 ++ x :: (m1 ++ n :: m2)) ++ z :: v2 := by
                  conv_lhs => rw [← hTD, hdw, hxsplit, hzsplit]
                  simp
                have hPn2 := hC u1 x (m1 ++ n :: m2) z v2 hr2 hPx hPz n (by simp)
                rw [hPn2] at hPn
                exact hPn rfl
              rw [hF2, List.append_nil]
              exact segSorted_of_pairwise hPF1

theorem sortCompare_pos_isSome {a b : Option Int} (h : 0 < sortCompare a b) :
    a.isSome = true ∧ b.isSome = true := by
  rcases a with _ | x
  · rw [sortCompare_none_left (fun o : Option Int => o) none b rfl] at h
    exact absurd h (lt_irrefl 0)
  · rcases b with _ | y
    · rw [sortCompare_none_right (fun o : Option Int => o) (some x) none rfl] at h
      exact absurd h (lt_irrefl 0)
    · exact ⟨rfl, rfl⟩

theorem retained_group_tag (b : Board) (isEast : Bool) (color : LineKey)
    (t : TaggedDeparture)
    (ht : t ∈ (b color).filterMap
        (fun train =>
          let isTrainEastbound := train.direction == "South" || train.direction == "East"
          if (isEast && isTrainEastbound) || (!isEast && !isTrainEastbound) then
            some { train := train, lineColor := color }
          else none)) :
    t.lineColor = color := by
  rcases List.mem_filterMap.mp ht with ⟨train, _, hsome⟩
  dsimp only at hsome
  split at hsome
  · injection hsome with h2
    rw [← h2]
  · exact Option.noConfusion hsome

theorem contig_retainedTrains (b : Board) (isEast : Bool) (k : LineKey) :
    Contig (fun t => t.lineColor = k) (retainedTrains b isEast) := by
  have hk : k ∈ keyOrder := by cases k <;> decide
  rcases List.append_of_mem hk with ⟨pre, post, hko⟩
  have hnd : keyOrder.Nodup := by decide
  rw [hko] at hnd
  have hdisj := (List.nodup_append.mp hnd).2.2
  have hkpre : k ∉ pre := by
    intro hkp
    exact hdisj hkp (List.mem_cons_self k post)
  have hkpost : k ∉ post := (List.nodup_cons.mp (List.nodup_append.mp hnd).2.1).1
  have hflat : retainedTrains b isEast
      = (pre.flatMap
          (fun color =>
            (b color).filterMap
              (fun train =>
                let isTrainEastbound := train.direction == "South" || train.direction == "East"
                if (isEast && isTrainEastbound) || (!isEast && !isTrainEastbound) then
                  some { train := train, lineColor := color }
                else none)))
        ++ (((b k).filterMap
              (fun train =>
                let isTrainEastbound := train.direction == "South" || train.direction == "East"
                if (isEast && isTrainEastbound) || (!isEast && !isTrainEastbound) then
                  some { train := train, lineColor := k }
                else none))
            ++ (post.flatMap
                (fun color =>
                  (b color).filterMap
                    (fun train =>
                      let isTrainEastbound := train.direction == "South" || train.direction == "East"
                      if (isEast && isTrainEastbound) || (!isEast && !isTrainEastbound) then
                        some { train := train, lineColor := color }
                      else none)))) := by
    rw [retainedTrains, hko]
    rw [List.flatMap_append, List.flatMap_cons]
  rw [hflat]
  refine contig_of_decomp _ _ _ _ ?_ ?_ ?_
  · intro e he
    rcases List.mem_flatMap.mp he with ⟨c2, hc2, he2⟩
    have htag := retained_group_tag b isEast c2 e he2
    have hne : c2 ≠ k := by
      intro heq
      rw [heq] at hc2
      exact hkpre hc2
    simp [htag, hne]
  · intro e he
    have htag := retained_group_tag b isEast k e he
    simp [htag]
  · intro e he
    rcases List.mem_flatMap.mp he with ⟨c2, hc2, he2⟩
    have htag := retained_group_tag b isEast c2 e he2
    have hne : c2 ≠ k := by
      intro heq
      rw [heq] at hc2
      exact hkpost hc2
    simp [htag, hne]

theorem barrier_flat (b : Board) (isEast : Bool) (k : LineKey) :
    Barrier taggedKey (fun t => t.lineColor = k)
      ((filterRoutesByDirectionCore b isEast).flatMap Prod.snd) := by
  intro u x m z v hsplit hx hz hcmp
  by_cases hnan : ∃ n ∈ m, taggedKey n = none
  · exact hnan
  · exfalso
    have hm : ∀ e ∈ m.filter (fun t => t.lineColor = k), (taggedKey e).isSome = true := by
      intro e he
      rcases hke : taggedKey e with _ | v2
      · exact absurd ⟨e, List.mem_of_mem_filter he, hke⟩ hnan
      · rfl
    have hseg : SegSorted taggedKey
        (((filterRoutesByDirectionCore b isEast).flatMap Prod.snd).filter
          (fun t => t.lineColor = k)) := by
      rw [flat_filter_eq_bucketOf k _ (groupsWF_filterCore b isEast), filterCore_bucket]
      exact segSorted_filter_sortByKey taggedKey _ (retainedTrains b isEast).length
        (retainedTrains b isEast) le_rfl (contig_retainedTrains b isEast k)
    have hfsplit : ((filterRoutesByDirectionCore b isEast).flatMap Prod.snd).filter
          (fun t => t.lineColor = k)
        = (u.filter (fun t => t.lineColor = k)
            ++ x :: m.filter (fun t => t.lineColor = k))
          ++ z :: v.filter (fun t => t.lineColor = k) := by
      rw [hsplit, List.filter_append, List.filter_append, List.filter_cons, List.filter_cons,
        if_pos hx, if_pos hz]
    have hiso := sortCompare_pos_isSome hcmp
    have := hseg (u.filter (fun t => t.lineColor = k)) x
      (m.filter (fun t => t.lineColor = k)) z (v.filter (fun t => t.lineColor = k))
      hfsplit hm hiso.1 hiso.2
    exact absurd hcmp (not_lt.mpr this)

/-- Claim C9: for every departure board and every user coordinate,
flattening all buckets of the filter's output (in the object's key
insertion order) into one sequence and re-sorting it globally by departure
time reproduces, for every line-direction key, exactly the bucket sequence
already present in the output.  This holds for arbitrary boards, including
ones carrying invalid (`NaN`) instants, whose comparator results
ECMAScript's `SortCompare` treats as `+0`: an inversion inside one color
can only sit across a same-color invalid-instant barrier, which the
re-sort cannot cross. -/
theorem C9_resort_of_flatten_reproduces_buckets (b : Board) (lat lon : ℝ) (k : LineKey) :
    (sortByKey taggedKey
        ((filterRoutesByDirection b lat lon).flatMap Prod.snd)).filter
      (fun t => t.lineColor = k)
      = bucketOf (filterRoutesByDirection b lat lon) k := by
  unfold filterRoutesByDirection
  rw [filter_sortByKey_of_barrier taggedKey _ _
      (barrier_flat b (isEastOfSFBorder lat lon) k),
    flat_filter_eq_bucketOf k _ (groupsWF_filterCore _ _)]

end BartWidget
